import Mathlib

set_option linter.unusedVariables false

/-!
Verification development for the ayni_core feature engine.

This file gives a shallow embedding, in Lean 4, of the core data model and
operations of the feature-dependency resolution and execution engine:

* `Store` with `storeFeature` / `getFeature` / `hasFeature`
  (src/features/store.py),
* `isAggregation` (src/features/detector.py),
* `calculateFilter` / `calculateAttribute` (src/execution/calculator.py,
  with the numpy `np.vectorize` broadcast semantics made explicit),
* `processGroup`, `processNoGrouping`, `processAllGroups`
  (src/execution/groupby.py), and
* `resolveFeature` / `resolveDependencies` (src/features/resolver.py,
  fuel-indexed: the Python recursion has no budget, so running out of fuel
  at every budget models a run that never returns).

Python dictionaries are embedded as association lists (`insertAssoc`
overwrites in place, preserving key order, exactly like dict assignment),
pandas data frames as a list of named columns plus a row count, NA cells as
`Option`, and fallible paths return `Except`.  User-supplied feature bodies
are opaque total functions.  Theorems about the claims follow after all the
definitions.
-/

namespace AyniCore

/-- Python truthiness of an optional string: `None` and the empty string are
falsy, everything else is truthy. -/
def pyTruthy : Option String → Bool
  | none => false
  | some s => !(s == "")

/-- Python `a or b` on optional strings: returns `a` when truthy, else `b`. -/
def pyOrStr (a b : Option String) : Option String :=
  if pyTruthy a then a else b

/-- Python dict assignment `d[k] = v` on an association list: overwrite in
place when the key exists, append otherwise. -/
def insertAssoc {β : Type} (l : List (String × β)) (k : String) (v : β) :
    List (String × β) :=
  if (l.lookup k).isSome then
    l.map fun p => if p.1 = k then (k, v) else p
  else l ++ [(k, v)]

/-- Append an element to a list unless it is already present (the
`if x not in l: l.append(x)` pattern of the resolver). -/
def appendIfAbsent (l : List String) (x : String) : List String :=
  if l.contains x then l else l ++ [x]

/-!
## Feature definitions and the in-memory store (src/features/store.py)

A stored feature definition is either a Python function, of which the
resolver only ever reads the parameter-name list
(`feature_def.__code__.co_varnames[:co_argcount]`), or a dict with an
`args` list (the `udf` code string is opaque to the resolver).
-/

inductive FeatureDefn where
  | func (params : List String)
  | dict (args : List String)
deriving DecidableEq

/-- Argument-list extraction performed by `DependencyResolver._resolve_feature`
(lines 212-217): parameter names of a callable, or the `args` entry of a
dict definition. -/
def resolverArgList : FeatureDefn → List String
  | .func params => params
  | .dict args => args

/-- In-memory state of `FeatureStore`: the `features` dict (string key
`"model:name"` or bare `name`) and the `current_model` context. -/
structure Store where
  features : List (String × FeatureDefn)
  currentModel : Option String
deriving DecidableEq

/-- Key construction `f"{model}:{name}" if model else name` of
`store_feature` / `get_feature`. -/
def encKey (m : Option String) (name : String) : String :=
  if pyTruthy m then m.getD "" ++ ":" ++ name else name

/-- `FeatureStore.store_feature` (store.py lines 134-146): resolve the model
context with Python `or`, then assign under the encoded key. -/
def Store.storeFeature (st : Store) (name : String) (fd : FeatureDefn)
    (model : Option String) : Store :=
  let m := pyOrStr model st.currentModel
  { st with features := insertAssoc st.features (encKey m name) fd }

/-- `FeatureStore.get_feature` (store.py lines 148-166): try the model-scoped
key first, then fall back to the unqualified name when a model context is
active.  The unqualified key is where `store_feature` puts a definition
registered with no model context, i.e. the common (shared) namespace of the
in-memory registry. -/
def Store.getFeature (st : Store) (name : String) (model : Option String) :
    Option FeatureDefn :=
  let m := pyOrStr model st.currentModel
  let fd := st.features.lookup (encKey m name)
  if fd.isNone && pyTruthy m then st.features.lookup name else fd

/-- `FeatureStore.has_feature` (store.py lines 168-178): membership of the
bare name among the dict keys. -/
def Store.hasFeature (st : Store) (name : String) : Bool :=
  (st.features.lookup name).isSome

/-- Key of the common (no-model) namespace for a feature name: the bare
name, exactly what `store_feature` writes when neither an explicit model nor
a `current_model` context is set. -/
def commonKey (name : String) : String := name

/-!
## Aggregation detection (src/features/detector.py)
-/

/-- The fixed keyword list `FeatureTypeDetector.AGGREGATION_KEYWORDS`
(detector.py lines 30-54), verbatim. -/
def AGGREGATION_KEYWORDS : List String :=
  ["np.vectorize(",
   "np.where(",
   "#gby",
   ".sum(",
   ".max(",
   ".min(",
   ".unique(",
   ".nunique(",
   ".mean(",
   ".median(",
   ".percentile(",
   ".take(",
   "[first_value]",
   ".nansum(",
   "np.nanmax(",
   "np.nanmin(",
   "flag1",
   "rows_out",
   "agg_out",
   "#agg",
   ".count_nonzero(",
   "zip(",
   "counter("]

/-- Whether `pat` is an initial segment of `txt` (on character lists). -/
def leadsChars : List Char → List Char → Bool
  | [], _ => true
  | _ :: _, [] => false
  | c :: cs, d :: ds => c == d && leadsChars cs ds

/-- Whether `pat` occurs as a contiguous substring of `txt` (the Python
`pat in txt` membership test on strings). -/
def occursInChars (pat : List Char) : List Char → Bool
  | [] => leadsChars pat []
  | d :: ds => leadsChars pat (d :: ds) || occursInChars pat ds

/-- The case-insensitive keyword scan of `is_aggregation`: lowercase the
text once, then test each keyword (lowercased) for substring occurrence,
combined with a boolean `any`. -/
def containsKeyword (text : String) : Bool :=
  let lower := text.toLower
  AGGREGATION_KEYWORDS.any fun kw => occursInChars kw.toLower.data lower.data

/-- Input of `FeatureTypeDetector.is_aggregation`: a callable, whose source
`inspect.getsource` either retrieves (`some src`) or fails to retrieve
(`none`, raising `OSError`/`TypeError` which the method catches), or a
non-callable turned into its string representation. -/
inductive FeatureText where
  | callable (src : Option String)
  | text (s : String)
deriving DecidableEq

/-- `FeatureTypeDetector.is_aggregation` (detector.py lines 56-97): source
retrieval failure yields `false`; otherwise a case-insensitive substring
scan over the fixed keyword list. -/
def isAggregation : FeatureText → Bool
  | .callable none => false
  | .callable (some src) => containsKeyword src
  | .text s => containsKeyword s

/-!
## Calculator (src/execution/calculator.py)

Arguments handed to a feature body are either whole-column arrays or
scalars.  `calculate_filter` applies `np.vectorize(func)(*args_data)`:
arrays are consumed element by element, scalars are broadcast, and all
arrays must share one length (otherwise numpy raises a broadcast error,
embedded as `none`).  `calculate_attribute` calls the body once, directly.
-/

inductive ArgValue (V : Type) where
  | scalar (v : V)
  | array (vs : List V)
deriving DecidableEq

/-- Length of an array argument, `none` for a scalar. -/
def arrayLen {V : Type} : ArgValue V → Option Nat
  | .scalar _ => none
  | .array vs => some vs.length

/-- Common broadcast length of an argument list: `none` on a length
mismatch between two arrays, `some none` when all arguments are scalars,
`some (some n)` when every array has length `n`. -/
def broadcastLen {V : Type} : List (ArgValue V) → Option (Option Nat)
  | [] => some none
  | a :: rest =>
    match broadcastLen rest, arrayLen a with
    | none, _ => none
    | some none, l => some l
    | some (some n), none => some (some n)
    | some (some n), some m => if m = n then some (some n) else none

/-- Row projection of one argument: an array is indexed at the row, a
scalar is broadcast unchanged. -/
def projArg {V : Type} [Inhabited V] (a : ArgValue V) (i : Nat) : V :=
  match a with
  | .scalar v => v
  | .array vs => vs.getD i default

/-- Semantics of `np.vectorize(func)(*args_data)` for 1-dimensional array
and scalar arguments: one call of `func` per row on the row-projected
arguments.  The all-scalar case gives numpy's 0-dimensional result,
embedded as a one-element list. -/
def npVectorize {V : Type} [Inhabited V] (f : List (ArgValue V) → V)
    (args : List (ArgValue V)) : Option (List V) :=
  match broadcastLen args with
  | none => none
  | some none => some [f args]
  | some (some n) =>
      some ((List.range n).map fun i => f (args.map fun a => ArgValue.scalar (projArg a i)))

/-- `FeatureCalculator.calculate_filter` (calculator.py lines 106-143):
vectorize and execute. -/
def calculateFilter {V : Type} [Inhabited V] (featureName : String)
    (func : List (ArgValue V) → V) (argsData : List (ArgValue V)) : Option (List V) :=
  npVectorize func argsData

/-- `FeatureCalculator.calculate_attribute` (calculator.py lines 145-183):
execute the body directly, once. -/
def calculateAttribute {V : Type} (featureName : String)
    (func : List (ArgValue V) → V) (argsData : List (ArgValue V)) : V :=
  func argsData

/-!
## Data frames and configuration (src/execution/groupby.py)

A pandas frame is embedded as a row count plus an ordered list of named
columns.  In the grouped pipeline a cell type of `Option granular` models
NA values (`none` is NaN); the per-group execution loop itself is generic
in the cell type `V`.
-/

structure DFrame (V : Type) where
  nrows : Nat
  cols : List (String × List V)
deriving DecidableEq

def DFrame.colNames {V : Type} (df : DFrame V) : List String :=
  df.cols.map Prod.fst

def DFrame.getCol {V : Type} (df : DFrame V) (name : String) : Option (List V) :=
  df.cols.lookup name

/-- Column assignment `df[name] = vals`: overwrite in place when the column
exists, append otherwise (row count unchanged). -/
def DFrame.setCol {V : Type} (df : DFrame V) (name : String) (vals : List V) :
    DFrame V :=
  if (df.cols.lookup name).isSome then
    { df with cols := df.cols.map fun p => if p.1 = name then (name, vals) else p }
  else { df with cols := df.cols ++ [(name, vals)] }

/-- Pandas `df.empty`: no rows or no columns. -/
def DFrame.isEmpty {V : Type} (df : DFrame V) : Bool :=
  df.nrows == 0 || df.cols.isEmpty

def emptyDF (V : Type) : DFrame V := ⟨0, []⟩

/-- The slice of `cfg_model` that `GroupByProcessor` reads.  `group_by`
models the `None`/`[]`/empty-string cases as `none` and a single string
column as `some`; the multi-column list form is not exercised by any claim
and is not modelled. -/
structure CfgModel (V : Type) where
  exec_seq : List String
  feature_funcs : List (String × (List (ArgValue V) → V))
  feature_args : List (String × List String)
  feature_groupby_flg : List (String × Bool)
  ext_cols_list : List String
  group_by : Option String

/-- Runtime errors of the execution loop: the unresolved-argument
`ValueError` of groupby.py line 139 (and line 426 in enrichment mode), the
`KeyError` of a missing dict key or frame column, the `IndexError` of
`values[0]` on an empty column, and the numpy broadcast error inside
`np.vectorize`. -/
inductive ExecErr where
  | unresolvedArg (feature arg : String)
  | keyError (key : String)
  | extIndexError (feature arg : String)
  | broadcastError (feature : String)
deriving DecidableEq

/-- Return value of `process_group`: the working row table, the scalar map
of attributes, and the list of filter columns calculated. -/
structure GroupResult (V : Type) where
  data_in : DFrame V
  agg_results : List (String × V)
  filters_calculated : List String
deriving DecidableEq

/-- The argument-resolution loop of `process_group` (groupby.py lines
104-139): each argument is searched first in `agg_results`, then in the
pre-computed external-column list (reading row 0 of the column), then among
the row-table columns; `in_flg` records a hit in the third source,
`out_flg` a hit in the first or second; a miss everywhere raises. -/
def resolveArgsLoop {V : Type} (df : DFrame V) (agg : List (String × V))
    (ext : List String) (feature : String) :
    List String → List (ArgValue V) → Bool → Bool →
    Except ExecErr (List (ArgValue V) × Bool × Bool)
  | [], acc, inFlg, outFlg => .ok (acc, inFlg, outFlg)
  | arg :: rest, acc, inFlg, outFlg =>
    match agg.lookup arg with
    | some v =>
        resolveArgsLoop df agg ext feature rest (acc ++ [ArgValue.scalar v]) inFlg true
    | none =>
      if ext.contains arg then
        match df.getCol arg with
        | none => .error (.keyError arg)
        | some vs =>
          match vs.head? with
          | none => .error (.extIndexError feature arg)
          | some v =>
              resolveArgsLoop df agg ext feature rest (acc ++ [ArgValue.scalar v]) inFlg true
      else
        match df.getCol arg with
        | some vs =>
            resolveArgsLoop df agg ext feature rest (acc ++ [ArgValue.array vs]) true outFlg
        | none => .error (.unresolvedArg feature arg)

/-- The single loop of `GroupByProcessor.process_group` (groupby.py lines
89-183): skip features already present as columns, resolve arguments with
flag tracking, then route through the 4-case decision
`if in_flg and not groupby_flg: FILTER else: ATTRIBUTE`.  The
`len(args_data) != len(args)` guard of line 142 (a `continue`) is kept even
though argument resolution makes it unreachable. -/
def processGroupAux {V : Type} [Inhabited V] (cfg : CfgModel V) :
    List String → DFrame V → List (String × V) → List String →
    Except ExecErr (GroupResult V)
  | [], df, agg, fc => .ok ⟨df, agg, fc⟩
  | feature :: rest, df, agg, fc =>
    if df.colNames.contains feature then
      processGroupAux cfg rest df agg fc
    else
      match cfg.feature_funcs.lookup feature with
      | none => .error (.keyError feature)
      | some func =>
        match cfg.feature_args.lookup feature with
        | none => .error (.keyError feature)
        | some args =>
          match cfg.feature_groupby_flg.lookup feature with
          | none => .error (.keyError feature)
          | some groupbyFlg =>
            match resolveArgsLoop df agg cfg.ext_cols_list feature args [] false false with
            | .error e => .error e
            | .ok (argsData, inFlg, outFlg) =>
              if argsData.length ≠ args.length then
                processGroupAux cfg rest df agg fc
              else if inFlg && !groupbyFlg then
                match calculateFilter feature func argsData with
                | none => .error (.broadcastError feature)
                | some col =>
                    processGroupAux cfg rest (df.setCol feature col) agg (fc ++ [feature])
              else
                processGroupAux cfg rest df
                  (insertAssoc agg feature (calculateAttribute feature func argsData)) fc

def processGroup {V : Type} [Inhabited V] (df : DFrame V) (cfg : CfgModel V) :
    Except ExecErr (GroupResult V) :=
  processGroupAux cfg cfg.exec_seq df [] []

/-- Argument resolution of `_process_no_grouping` (groupby.py lines
417-426): arguments come from the enriched frame only; a miss raises. -/
def resolveArgsEnrichment {V : Type} (df : DFrame V) (feature : String) :
    List String → Except ExecErr (List (ArgValue V))
  | [] => .ok []
  | arg :: rest =>
    match df.getCol arg with
    | some vs =>
        (resolveArgsEnrichment df feature rest).map fun acc => ArgValue.array vs :: acc
    | none => .error (.unresolvedArg feature arg)

/-- The loop of `GroupByProcessor._process_no_grouping` (groupby.py lines
398-442): skip features already present, skip features with
`groupby_flg=True` (warning), compute every other feature as a filter over
the whole dataset. -/
def processNoGroupingAux {V : Type} [Inhabited V] (cfg : CfgModel V) :
    List String → DFrame V → List String →
    Except ExecErr (DFrame V × List String)
  | [], df, fc => .ok (df, fc)
  | feature :: rest, df, fc =>
    if df.colNames.contains feature then
      processNoGroupingAux cfg rest df fc
    else
      match cfg.feature_funcs.lookup feature with
      | none => .error (.keyError feature)
      | some func =>
        match cfg.feature_args.lookup feature with
        | none => .error (.keyError feature)
        | some args =>
          match cfg.feature_groupby_flg.lookup feature with
          | none => .error (.keyError feature)
          | some groupbyFlg =>
            if groupbyFlg then
              processNoGroupingAux cfg rest df fc
            else
              match resolveArgsEnrichment df feature args with
              | .error e => .error e
              | .ok argsData =>
                if argsData.length ≠ args.length then
                  processNoGroupingAux cfg rest df fc
                else
                  match calculateFilter feature func argsData with
                  | none => .error (.broadcastError feature)
                  | some col =>
                      processNoGroupingAux cfg rest (df.setCol feature col) (fc ++ [feature])

/-- `GroupByProcessor._process_no_grouping` (groupby.py lines 371-453):
returns the enriched frame as the filters table, an always-empty attributes
table, and the list of calculated filter columns (stored into
`cfg_model['exec_fltrs']` by the source). -/
def processNoGrouping {V : Type} [Inhabited V] (df : DFrame V) (cfg : CfgModel V) :
    Except ExecErr (DFrame V × DFrame V × List String) :=
  (processNoGroupingAux cfg cfg.exec_seq df []).map fun r => (r.1, emptyDF V, r.2)

/-!
## Group iteration and combination (src/execution/groupby.py lines 262-369)

Cells are `Option granular`, with `none` for NA.  `groupby` iterates the
distinct non-NA key values in sorted order (the pandas default) and hands
each group's rows, minus the group column, to `process_group`.
-/

def cellIsNA {granular : Type} : Option granular → Bool := Option.isNone

/-- Pandas `df.dropna(axis=1, how='all')`: drop the columns whose values
are all NA. -/
def dropAllNAcols {granular : Type} (df : DFrame (Option granular)) :
    DFrame (Option granular) :=
  { df with cols := df.cols.filter fun p => !(p.2.all cellIsNA) }

/-- Distinct non-NA values of the group column, in order of appearance. -/
def distinctSomeVals {granular : Type} [DecidableEq granular]
    (vals : List (Option granular)) : List granular :=
  vals.foldl
    (fun acc v =>
      match v with
      | none => acc
      | some x => if acc.contains x then acc else acc ++ [x])
    []

def insertSorted {granular : Type} [LinearOrder granular] (x : granular) :
    List granular → List granular
  | [] => [x]
  | y :: ys => if x ≤ y then x :: y :: ys else y :: insertSorted x ys

/-- Ascending sort of the group keys (pandas `groupby` sorts keys by
default). -/
def sortKeys {granular : Type} [LinearOrder granular] (l : List granular) :
    List granular :=
  l.foldl (fun acc x => insertSorted x acc) []

/-- Row indices belonging to the group with key `k`. -/
def groupIndices {granular : Type} [DecidableEq granular]
    (gcol : List (Option granular)) (k : granular) : List Nat :=
  (List.range gcol.length).filter fun i => decide (gcol.getD i none = some k)

/-- The sub-frame a pandas `groupby(...).apply(..., include_groups=False)`
hands to `process_group` for key `k`: the group's rows in original order,
without the group column. -/
def subframeFor {granular : Type} [DecidableEq granular]
    (df : DFrame (Option granular)) (g : String) (gcol : List (Option granular))
    (k : granular) : DFrame (Option granular) :=
  let idxs := groupIndices gcol k
  ⟨idxs.length, (df.cols.filter fun p => !(p.1 == g)).map fun p => (p.1, idxs.filterMap p.2.get?)⟩

/-- The `groupby(...).apply(process_group)` step (groupby.py lines
299-302): one `GroupResult` per sorted distinct group key; an exception in
any group aborts the whole run. -/
def groupedResults {granular : Type} [LinearOrder granular]
    (df : DFrame (Option granular)) (cfg : CfgModel (Option granular))
    (g : String) (gcol : List (Option granular)) :
    Except ExecErr (List (granular × GroupResult (Option granular))) :=
  (sortKeys (distinctSomeVals gcol)).mapM fun k =>
    (processGroup (subframeFor df g gcol k) cfg).map fun r => (k, r)

/-- Re-attach the group key as a column (`df[group_by_col] = group_value`,
groupby.py line 333). -/
def withGroupKey {granular : Type} (g : String) (k : granular)
    (r : GroupResult (Option granular)) : DFrame (Option granular) :=
  r.data_in.setCol g (List.replicate r.data_in.nrows (some k))

/-- One group's contribution to the combined filters frame (groupby.py
lines 320-337): skipped when the group's `data_in` is empty, otherwise the
key-extended frame with its all-NA columns dropped. -/
def cleanedContribution {granular : Type} (g : String) (k : granular)
    (r : GroupResult (Option granular)) : Option (DFrame (Option granular)) :=
  if r.data_in.isEmpty then none
  else some (dropAllNAcols (withGroupKey g k r))

/-- `pd.concat(dfs, ignore_index=True)`: the union of the column names in
order of first appearance; a frame lacking a column contributes NA rows
there. -/
def concatDFs {granular : Type} (dfs : List (DFrame (Option granular))) :
    DFrame (Option granular) :=
  let names := dfs.foldl (fun acc d => acc ++ d.colNames.filter fun n => !(acc.contains n)) []
  ⟨(dfs.map DFrame.nrows).sum,
   names.map fun n =>
     (n,
      (dfs.map fun d =>
        match d.getCol n with
        | some vs => vs
        | none => List.replicate d.nrows none).flatten)⟩

/-- The attribute rows (groupby.py lines 348-363): for each group the dict
with the group key under the group column name, updated with the group's
`agg_results`. -/
def attrsRows {granular : Type} (g : String)
    (results : List (granular × GroupResult (Option granular))) :
    List (List (String × Option granular)) :=
  results.map fun p =>
    p.2.agg_results.foldl (fun acc q => insertAssoc acc q.1 q.2) [(g, some p.1)]

/-- `pd.DataFrame(list_of_dicts)`: columns are the union of the dict keys in
order of first appearance; a missing key yields NA. -/
def dictsToDF {granular : Type} (rows : List (List (String × Option granular))) :
    DFrame (Option granular) :=
  let names := rows.foldl (fun acc r => acc ++ (r.map Prod.fst).filter fun n => !(acc.contains n)) []
  ⟨rows.length, names.map fun n => (n, rows.map fun r => (r.lookup n).getD none)⟩

/-- `GroupByProcessor.process_all_groups` (groupby.py lines 262-369) for a
run without external data (so the `_merge_external_data` step is the
identity): enrichment mode when no group column is configured, otherwise
per-group single-loop execution followed by combination of the per-group
row tables (group key re-attached, all-NA columns dropped, concatenated)
and of the per-group scalar maps. -/
def processAllGroups {granular : Type} [LinearOrder granular]
    (df : DFrame (Option granular)) (cfg : CfgModel (Option granular)) :
    Except ExecErr (DFrame (Option granular) × DFrame (Option granular)) :=
  match cfg.group_by with
  | none => (processNoGrouping df cfg).map fun r => (r.1, r.2.1)
  | some g =>
    match df.getCol g with
    | none => .error (.keyError g)
    | some gcol =>
      (groupedResults df cfg g gcol).map fun results =>
        let contributions := results.filterMap fun p => cleanedContribution g p.1 p.2
        let combined := if contributions.isEmpty then emptyDF (Option granular)
                        else concatDFs contributions
        let filtersDf := if combined.isEmpty then emptyDF (Option granular) else combined
        let rows := attrsRows g results
        let attrsDf := if rows.isEmpty then emptyDF (Option granular) else dictsToDF rows
        (filtersDf, attrsDf)

/-!
## Dependency resolution (src/features/resolver.py)

`_resolve_feature` is a depth-first recursion with no cycle guard and no
recursion bound; the embedding indexes it by fuel, one unit per recursion
level, so that a run returning `fuelExhausted` at every fuel is a run that
never returns.  The filesystem behind `load_from_filesystem` is an oracle
`fs : folder → feature → Option args` (the metadata `args` list of the
stored feature; the code string is opaque to the resolver); the model
folder is consulted first, then the `common` folder, exactly like
store.py lines 285-350.  `feat_idx` is the directory listing produced by
`get_feature_index`.
-/

/-- Errors of the resolution recursion: running out of fuel (the Python
recursion simply never returns distinguished from its unbounded descent),
the `FileNotFoundError` of `load_from_filesystem`, and the
`AttributeError` that Python raises in `_resolve_feature` when
`get_feature` returns `None` and the code reads `.args` off it. -/
inductive ResolveErr where
  | fuelExhausted
  | fileNotFound (feature : String)
  | attrError (feature : String)
deriving DecidableEq

/-- What `load_from_filesystem` would load for a feature: the model folder
first, the `common` folder as fallback, packaged as a dict definition with
the metadata `args` list. -/
def fsDef (fs : String → String → Option (List String)) (model feature : String) :
    Option FeatureDefn :=
  match fs model feature with
  | some args => some (.dict args)
  | none => (fs "common" feature).map .dict

/-- `FeatureStore.load_from_filesystem` (store.py lines 285-350): raise
when the feature is on disk in neither the model folder nor the common
folder, otherwise store the loaded definition under the model context. -/
def loadFromFilesystem (fs : String → String → Option (List String)) (st : Store)
    (model feature : String) : Except ResolveErr Store :=
  match fsDef fs model feature with
  | none => .error (.fileNotFound feature)
  | some fd => .ok (st.storeFeature feature fd (some model))

/-- The argument loop of `_resolve_feature` (resolver.py lines 222-235):
recurse with `step` (the resolver one recursion level deeper) on each
argument not in `group_by`, threading the accumulated state. -/
def resolveArgsSeq (G : List String)
    (step : String → Store → List String → List String →
      Except ResolveErr (Store × List String × List String)) :
    List String → Store → List String → List String →
    Except ResolveErr (Store × List String × List String)
  | [], st, inputCols, execSeq => .ok (st, inputCols, execSeq)
  | arg :: rest, st, inputCols, execSeq =>
    if G.contains arg then
      resolveArgsSeq G step rest st inputCols execSeq
    else
      match step arg st inputCols execSeq with
      | .error e => .error e
      | .ok (st1, ic1, seq1) => resolveArgsSeq G step rest st1 ic1 seq1

/-- `DependencyResolver._resolve_feature` (resolver.py lines 154-242).
Case 1: an available input column goes to `input_cols`.  Case 2: a feature
neither stored nor in the feature index goes to `input_cols`; one in the
index is loaded from the filesystem first.  Case 3: a stored feature has
each argument outside `group_by` resolved recursively, then is appended to
`exec_seq` if absent. -/
def resolveFeature (fs : String → String → Option (List String))
    (fidx A G : List String) (model : String) :
    Nat → String → Store → List String → List String →
    Except ResolveErr (Store × List String × List String)
  | 0, _, _, _, _ => .error .fuelExhausted
  | fuel + 1, feature, st, inputCols, execSeq =>
    if A.contains feature then
      .ok (st, appendIfAbsent inputCols feature, execSeq)
    else if !(st.hasFeature feature) && !(fidx.contains feature) then
      .ok (st, appendIfAbsent inputCols feature, execSeq)
    else
      match (if st.hasFeature feature then Except.ok st
             else loadFromFilesystem fs st model feature) with
      | .error e => .error e
      | .ok st1 =>
        match st1.getFeature feature none with
        | none => .error (.attrError feature)
        | some fd =>
          match resolveArgsSeq G (resolveFeature fs fidx A G model fuel)
              (resolverArgList fd) st1 inputCols execSeq with
          | .error e => .error e
          | .ok (st2, ic2, seq2) => .ok (st2, ic2, appendIfAbsent seq2 feature)

/-- `DependencyResolver.resolve_dependencies` (resolver.py lines 39-101)
restricted to what the claims exercise: resolve each requested output in
order, threading `input_cols` and `exec_seq`.  The `group_by` argument is
taken already in list form (`normalize_to_list` is the identity on lists),
and the external-column annotation of lines 88-101, which does not alter
`input_cols` or `exec_seq`, is omitted. -/
def resolveDependencies (fs : String → String → Option (List String))
    (fidx A G : List String) (model : String) (fuel : Nat) (st : Store)
    (outputCols : List String) :
    Except ResolveErr (Store × List String × List String) :=
  outputCols.foldlM
    (fun acc feature =>
      resolveFeature fs fidx A G model fuel feature acc.1 acc.2.1 acc.2.2)
    (st, [], [])

/-!
## Specification-side definitions

Declarative restatements (from the spec text) of quantities the execution
loop computes imperatively, plus well-formedness predicates used as
hypotheses, plus the concrete inputs used by witnesses and
counterexamples.
-/

/-- Declarative `in_flg`: some argument is found in none of the two
earlier sources but is a row-table column (spec section 4.5 step 2,
source 3). -/
def specInFlg {V : Type} (df : DFrame V) (agg : List (String × V))
    (ext : List String) (args : List String) : Bool :=
  args.any fun a => (agg.lookup a).isNone && !(ext.contains a) && (df.getCol a).isSome

/-- Declarative `out_flg`: some argument is found in the scalar map, or
missing there but in the external-column set (spec section 4.5 step 2,
sources 1 and 2). -/
def specOutFlg {V : Type} (df : DFrame V) (agg : List (String × V))
    (ext : List String) (args : List String) : Bool :=
  args.any fun a => (agg.lookup a).isSome || ((agg.lookup a).isNone && ext.contains a)

/-- Well-formed frame: every column holds one value per row. -/
def DFrame.wf {V : Type} (df : DFrame V) : Prop :=
  ∀ p ∈ df.cols, (p.2 : List V).length = df.nrows

/-- The configuration covers its execution sequence: every scheduled
feature has a function, an argument list and a classification flag (the
executor's `analyze_features` step guarantees this for features it
analyzed). -/
def CfgModel.covers {V : Type} (cfg : CfgModel V) : Prop :=
  ∀ f ∈ cfg.exec_seq,
    (cfg.feature_funcs.lookup f).isSome ∧ (cfg.feature_args.lookup f).isSome ∧
    (cfg.feature_groupby_flg.lookup f).isSome

/-- Name-level simulation of the single loop (spec section 4.5): tracking
only column names and scalar names, a step succeeds exactly when every
argument of an executed feature is found in the scalar names, the
external-column set, or the column names; routing follows the 4-case
decision on names.  This is the specification-side account against which
`processGroup` is compared. -/
def execNamesOk {V : Type} (cfg : CfgModel V) :
    List String → List String → List String → Bool
  | [], _, _ => true
  | f :: rest, colsN, scalarsN =>
    if colsN.contains f then execNamesOk cfg rest colsN scalarsN
    else
      match cfg.feature_funcs.lookup f, cfg.feature_args.lookup f,
            cfg.feature_groupby_flg.lookup f with
      | some _, some args, some flg =>
        if args.all fun a =>
            scalarsN.contains a || cfg.ext_cols_list.contains a || colsN.contains a then
          if (args.any fun a =>
                !(scalarsN.contains a) && !(cfg.ext_cols_list.contains a) && colsN.contains a)
              && !flg then
            execNamesOk cfg rest (colsN ++ [f]) scalarsN
          else
            execNamesOk cfg rest colsN
              (if scalarsN.contains f then scalarsN else scalarsN ++ [f])
        else false
      | _, _, _ => false

/-- A string free of the `:` separator that the store's key encoding
`f"{model}:{name}"` uses; the well-formedness side condition for reasoning
about the string-keyed registry. -/
def noColon (s : String) : Prop := ':' ∉ s.data

/-- All argument names of all stored definitions are colon-free. -/
def StoreNamesOk (st : Store) : Prop :=
  ∀ k fd, st.features.lookup k = some fd → ∀ a ∈ resolverArgList fd, noColon a

/-- All argument names of all filesystem definitions are colon-free. -/
def FsNamesOk (fs : String → String → Option (List String)) : Prop :=
  ∀ folder g args, fs folder g = some args → ∀ a ∈ args, noColon a

/-- Store evolution during one resolution run: every dict entry is either
unchanged or is the model-scoped key of some unstored colon-free feature,
overwritten with that feature's filesystem definition (what
`load_from_filesystem` writes). -/
def Evolves (fs : String → String → Option (List String)) (model : String)
    (st st' : Store) : Prop :=
  st'.currentModel = st.currentModel ∧
  ∀ k, st'.features.lookup k = st.features.lookup k ∨
    ∃ g, k = model ++ ":" ++ g ∧ noColon g ∧ st.hasFeature g = false ∧
      st'.features.lookup k = fsDef fs model g ∧ (fsDef fs model g).isSome

/-- Invariant of the resolution recursion over the accumulated execution
sequence: no duplicates; members are colon-free non-input features that
are stored or indexed; each member's definition is either pinned in the
store or equals its filesystem definition; and every argument of a
member's definition outside `group_by` is an input column, a permanently
unresolvable name, or an earlier member. -/
def ResolveInv (fs : String → String → Option (List String))
    (fidx A G : List String) (model : String) (st : Store) (seq : List String) :
    Prop :=
  seq.Nodup ∧
  (∀ f ∈ seq, noColon f ∧ A.contains f = false ∧
    (st.hasFeature f = true ∨ f ∈ fidx)) ∧
  (∀ f ∈ seq, st.hasFeature f = true ∨
    (st.getFeature f none = fsDef fs model f ∧ (fsDef fs model f).isSome)) ∧
  (∀ f ∈ seq, ∀ fd, st.getFeature f none = some fd →
    ∀ d ∈ resolverArgList fd, G.contains d = false →
      (A.contains d = true ∨ (st.hasFeature d = false ∧ d ∉ fidx ∧ noColon d) ∨
       (d ∈ seq ∧ seq.indexOf d < seq.indexOf f)))

/-- Specification of one resolution step (any recursion level of
`_resolve_feature`): on success from a well-formed state it evolves the
store only by filesystem loads, extends the execution sequence by
appending, preserves the invariant, and leaves the feature either
classified as an input column, as permanently unresolvable, or as a member
of the execution sequence. -/
def ResolveStepOk (fs : String → String → Option (List String))
    (fidx A G : List String) (model : String)
    (step : String → Store → List String → List String →
      Except ResolveErr (Store × List String × List String)) : Prop :=
  ∀ d st ic seq st' ic' seq', noColon d → st.currentModel = some model →
    StoreNamesOk st → ResolveInv fs fidx A G model st seq →
    step d st ic seq = .ok (st', ic', seq') →
    Evolves fs model st st' ∧ st'.currentModel = some model ∧ StoreNamesOk st' ∧
    (∃ t, seq' = seq ++ t) ∧ ResolveInv fs fidx A G model st' seq' ∧
    (A.contains d = true ∨ (st'.hasFeature d = false ∧ d ∉ fidx) ∨ d ∈ seq')

/-- Rank hypothesis (acyclic dependency graph): a rank function decreasing
along the dependency edges of every definition reachable in the store or
on the filesystem. -/
def RankHyp (fs : String → String → Option (List String)) (st : Store)
    (model : String) (A G : List String) (rank : String → Nat) : Prop :=
  ∀ f fd, (st.getFeature f none = some fd ∨ fsDef fs model f = some fd) →
    ∀ d ∈ resolverArgList fd, G.contains d = false → A.contains d = false →
      rank d < rank f

/-- Every feature listed in the feature index can actually be loaded. -/
def LoadHyp (fs : String → String → Option (List String)) (fidx : List String)
    (model : String) : Prop :=
  ∀ g ∈ fidx, (fsDef fs model g).isSome

/-!
## Concrete inputs for witnesses and counterexamples
-/

/-- A registry holding one bare-key (common-namespace) definition. -/
def stC4 : Store := ⟨[("f", FeatureDefn.dict ["x"])], none⟩

/-- Enrichment-mode configuration whose single feature is flagged as an
aggregation. -/
def cfgC6cx : CfgModel Int :=
  { exec_seq := ["x"]
  , feature_funcs := [("x", fun _ => 0)]
  , feature_args := [("x", [])]
  , feature_groupby_flg := [("x", true)]
  , ext_cols_list := []
  , group_by := none }

/-- Input frame that already carries a column named like the aggregation
feature of `cfgC6cx`. -/
def dfC6cx : DFrame Int := ⟨1, [("x", [7])]⟩

/-- Enrichment-mode configuration with one aggregation feature (to be
skipped) and one plain filter feature. -/
def cfgC6w : CfgModel Int :=
  { exec_seq := ["s", "t"]
  , feature_funcs :=
      [("s", fun l => match l with | [ArgValue.array vs] => vs.sum | _ => 0),
       ("t", fun l => match l with | [ArgValue.scalar v] => v + 1 | _ => 0)]
  , feature_args := [("s", ["q"]), ("t", ["q"])]
  , feature_groupby_flg := [("s", true), ("t", false)]
  , ext_cols_list := []
  , group_by := none }

def dfC6w : DFrame Int := ⟨2, [("q", [2, 3])]⟩

/-- Grouped configuration computing an attribute and then a filter that
reads it (the Case 2 capability). -/
def cfgC1w : CfgModel Int :=
  { exec_seq := ["qsum", "above"]
  , feature_funcs :=
      [("qsum", fun l => match l with | [ArgValue.array vs] => vs.sum | _ => 0),
       ("above", fun l => match l with
         | [ArgValue.scalar q, ArgValue.scalar s] => if 2 * q ≥ s then 1 else 0
         | _ => 0)]
  , feature_args := [("qsum", ["q"]), ("above", ["q", "qsum"])]
  , feature_groupby_flg := [("qsum", true), ("above", false)]
  , ext_cols_list := []
  , group_by := some "g" }

def dfC1w : DFrame Int := ⟨2, [("q", [2, 3])]⟩

/-- Input frame that already carries a column named like the `above`
feature of `cfgC1w`, so that the engine skips it. -/
def dfC8 : DFrame Int := ⟨2, [("q", [2, 3]), ("above", [5, 5])]⟩

/-- Grouped configuration over NA-capable cells: one filter feature, one
input column that is entirely NA. -/
def cfgC10 : CfgModel (Option Int) :=
  { exec_seq := ["f"]
  , feature_funcs :=
      [("f", fun l => match l with
        | [ArgValue.scalar (some v)] => some (v + 1)
        | _ => none)]
  , feature_args := [("f", ["q"])]
  , feature_groupby_flg := [("f", false)]
  , ext_cols_list := []
  , group_by := some "g" }

def dfC10 : DFrame (Option Int) :=
  ⟨2, [("g", [some 1, some 1]), ("c", [none, none]), ("q", [some 2, some 3])]⟩

/-- A registry whose single feature lists itself as its own argument. -/
def stCyc : Store := ⟨[("selfref", FeatureDefn.func ["selfref"])], none⟩

/-- The empty filesystem oracle: nothing is stored on disk. -/
def fsNone : String → String → Option (List String) := fun _ _ => none

/-- A registry with a two-level dependency chain under an active model
context, for the resolver witnesses. -/
def stChain : Store :=
  ⟨[("derived", FeatureDefn.func ["base", "c2"]), ("base", FeatureDefn.func ["c1"])],
   some "m"⟩

/-- A rank function witnessing acyclicity of `stChain`. -/
def rankChain : String → Nat
  | "derived" => 2
  | "base" => 1
  | _ => 0

/-- A concrete feature body adding up its scalar arguments. -/
def funcC9 : List (ArgValue Int) → Int :=
  fun l => l.foldl (fun acc a => acc + match a with | .scalar v => v | .array _ => 0) 0

/-- A concrete argument list: one column of three rows and one scalar. -/
def argsC9 : List (ArgValue Int) := [ArgValue.array [1, 2, 3], ArgValue.scalar 10]

/-!
# Theorems

General lemmas on the association-list and frame primitives first, then
one theorem per claim (with witnesses and counterexamples).
-/

theorem lookup_map_replace {β : Type} (l : List (String × β)) (k : String) (v : β)
    (k' : String) :
    (l.map fun p => if p.1 = k then (k, v) else p).lookup k' =
      if k' = k then ((l.lookup k).map fun _ => v) else l.lookup k' := by
  induction l with
  | nil => simp [List.lookup]
  | cons p rest ih =>
    by_cases hpk : p.1 = k
    · simp only [List.map, if_pos hpk]
      by_cases hk' : k' = k
      · subst hk'
        simp [List.lookup, hpk]
      · have h1 : (k' == k) = false := by simp [hk']
        have h2 : (k' == p.1) = false := by simp [hpk ▸ hk']
        simp [List.lookup, h1, h2, ih, hk']
    · simp only [List.map, if_neg hpk]
      have h2 : (k == p.1) = false := by
        simp only [beq_eq_false_iff_ne, ne_eq]
        exact fun h => hpk h.symm
      by_cases hk' : k' = p.1
      · subst hk'
        simp [List.lookup, hpk]
      · have h1 : (k' == p.1) = false := by simp [hk']
        simp [List.lookup, h1, h2, ih]

theorem lookup_append {β : Type} (l₁ l₂ : List (String × β)) (k : String) :
    (l₁ ++ l₂).lookup k =
      (match l₁.lookup k with
       | some v => some v
       | none => l₂.lookup k) := by
  induction l₁ with
  | nil => simp [List.lookup]
  | cons p rest ih =>
    by_cases hk : k = p.1
    · subst hk; simp [List.lookup]
    · have h1 : (k == p.1) = false := by simp [hk]
      simp [List.lookup, h1, ih]

theorem lookup_insertAssoc {β : Type} (l : List (String × β)) (k : String) (v : β)
    (k' : String) :
    (insertAssoc l k v).lookup k' = if k' = k then some v else l.lookup k' := by
  unfold insertAssoc
  by_cases hmem : (l.lookup k).isSome
  · rw [if_pos hmem, lookup_map_replace]
    by_cases hk' : k' = k
    · obtain ⟨w, hw⟩ := Option.isSome_iff_exists.mp hmem
      simp [hk', hw]
    · simp [hk']
  · rw [if_neg hmem, lookup_append]
    have hnone : l.lookup k = none := Option.not_isSome_iff_eq_none.mp hmem
    by_cases hk' : k' = k
    · subst hk'; simp [hnone, List.lookup]
    · have h1 : (k' == k) = false := by simp [hk']
      cases h : l.lookup k' with
      | some w => simp [h, hk']
      | none => simp [h, List.lookup, h1, hk']

theorem lookup_mem {β : Type} {l : List (String × β)} {k : String} {v : β}
    (h : l.lookup k = some v) : (k, v) ∈ l := by
  induction l with
  | nil => simp [List.lookup] at h
  | cons p rest ih =>
    by_cases hk : k = p.1
    · subst hk
      simp [List.lookup] at h
      subst h
      exact List.mem_cons_self _ _
    · have h2 : (k == p.1) = false := by simp [hk]
      simp only [List.lookup, h2] at h
      exact List.mem_cons_of_mem _ (ih h)

theorem lookup_isSome_iff_mem_keys {β : Type} (l : List (String × β)) (k : String) :
    (l.lookup k).isSome = true ↔ k ∈ l.map Prod.fst := by
  induction l with
  | nil => simp [List.lookup]
  | cons p rest ih =>
    by_cases hk : k = p.1
    · subst hk; simp [List.lookup]
    · have h2 : (k == p.1) = false := by simp [hk]
      simp [List.lookup, h2, ih, hk]

theorem contains_iff_mem (l : List String) (x : String) :
    l.contains x = true ↔ x ∈ l := by
  simp

/-- CLAIM C4.  `FeatureStore.get_feature(name, model)` performs
namespace-first, common-fallback lookup: the definition under the
namespaced key `model:name` when present, otherwise the definition under
the common-namespace key (the unqualified name, which is where
`store_feature` writes a definition registered with no model context). -/
theorem c4_get_feature_namespace_first (st : Store) (name model : String)
    (hm : model ≠ "") :
    (∀ fd, st.features.lookup (encKey (some model) name) = some fd →
        st.getFeature name (some model) = some fd) ∧
    (st.features.lookup (encKey (some model) name) = none →
        st.getFeature name (some model) = st.features.lookup (commonKey name)) := by
  have hmt : pyTruthy (some model) = true := by
    simp [pyTruthy, hm]
  constructor
  · intro fd h
    simp [Store.getFeature, pyOrStr, hmt, h]
  · intro h
    simp [Store.getFeature, pyOrStr, hmt, h, commonKey]

theorem c4_witness :
    ("m" : String) ≠ "" ∧
    Store.getFeature stC4 "f" (some "m") = some (FeatureDefn.dict ["x"]) := by
  have h := c4_get_feature_namespace_first stC4 "f" "m" (by decide)
  refine ⟨by decide, ?_⟩
  have h2 := h.2 (by decide)
  rw [h2]; decide

theorem leadsChars_iff (pat : List Char) :
    ∀ txt, leadsChars pat txt = true ↔ ∃ suf, txt = pat ++ suf := by
  induction pat with
  | nil => intro txt; simp [leadsChars]
  | cons c cs ih =>
    intro txt
    cases txt with
    | nil => simp [leadsChars]
    | cons d ds =>
      simp only [leadsChars, Bool.and_eq_true, beq_iff_eq, ih, List.cons_append]
      constructor
      · rintro ⟨rfl, suf, rfl⟩; exact ⟨suf, rfl⟩
      · rintro ⟨suf, h⟩
        rw [List.cons.injEq] at h
        exact ⟨h.1.symm, suf, h.2⟩

theorem occursInChars_iff (pat : List Char) :
    ∀ txt, occursInChars pat txt = true ↔ ∃ pre suf, txt = pre ++ pat ++ suf := by
  intro txt
  induction txt with
  | nil =>
    simp only [occursInChars, leadsChars_iff]
    constructor
    · rintro ⟨suf, h⟩; exact ⟨[], suf, by simpa using h⟩
    · rintro ⟨pre, suf, h⟩
      have hp : pre = [] := by
        cases pre with
        | nil => rfl
        | cons x xs => simp at h
      subst hp
      exact ⟨suf, by simpa using h⟩
  | cons d ds ih =>
    simp only [occursInChars, Bool.or_eq_true, leadsChars_iff, ih]
    constructor
    · rintro (⟨suf, h⟩ | ⟨pre, suf, h⟩)
      · exact ⟨[], suf, by simpa using h⟩
      · exact ⟨d :: pre, suf, by simp [h]⟩
    · rintro ⟨pre, suf, h⟩
      cases pre with
      | nil => exact Or.inl ⟨suf, by simpa using h⟩
      | cons x xs =>
        simp only [List.cons_append, List.cons.injEq] at h
        exact Or.inr ⟨xs, suf, h.2⟩

/-- CLAIM C7.  `FeatureTypeDetector.is_aggregation` returns `true` exactly
when some keyword of the fixed list occurs case-insensitively as a
substring of the feature's textual representation (the string itself for a
string, the retrieved source for a callable); it is a total boolean OR of
substring tests, and returns `false` for a callable whose source cannot be
retrieved. -/
theorem c7_is_aggregation_keyword_scan :
    (∀ s : String, isAggregation (.text s) = true ↔
      ∃ kw ∈ AGGREGATION_KEYWORDS, ∃ pre suf,
        s.toLower.data = pre ++ kw.toLower.data ++ suf) ∧
    (∀ src : String, isAggregation (.callable (some src)) = true ↔
      ∃ kw ∈ AGGREGATION_KEYWORDS, ∃ pre suf,
        src.toLower.data = pre ++ kw.toLower.data ++ suf) ∧
    isAggregation (.callable none) = false := by
  refine ⟨fun s => ?_, fun src => ?_, rfl⟩ <;>
    simp [isAggregation, containsKeyword, List.any_eq_true, occursInChars_iff]

theorem broadcastLen_of_uniform {V : Type} (args : List (ArgValue V)) (n : Nat)
    (hlen : ∀ vs, ArgValue.array vs ∈ args → vs.length = n) :
    broadcastLen args = some (some n) ∨
      (broadcastLen args = some none ∧ ∀ vs, ArgValue.array vs ∉ args) := by
  induction args with
  | nil => exact Or.inr ⟨rfl, by simp⟩
  | cons a rest ih =>
    have hr := ih fun vs h => hlen vs (List.mem_cons_of_mem _ h)
    cases a with
    | scalar v =>
      rcases hr with h | ⟨h, hna⟩
      · exact Or.inl (by simp [broadcastLen, h, arrayLen])
      · refine Or.inr ⟨by simp [broadcastLen, h, arrayLen], ?_⟩
        intro vs hm
        rcases List.mem_cons.mp hm with h' | h'
        · exact absurd h' (by simp)
        · exact hna vs h'
    | array vs =>
      have hv : vs.length = n := hlen vs (List.mem_cons_self _ _)
      rcases hr with h | ⟨h, hna⟩
      · exact Or.inl (by simp [broadcastLen, h, arrayLen, hv])
      · exact Or.inl (by simp [broadcastLen, h, arrayLen, hv])

/-- CLAIM C9.  `calculate_filter` applies the body independently to each
of the `n` rows, in row order: array arguments are indexed per row, scalar
arguments are broadcast, and the result has exactly one value per row. -/
theorem c9_calculate_filter_rowwise {V : Type} [Inhabited V] (fname : String)
    (func : List (ArgValue V) → V) (args : List (ArgValue V)) (n : Nat)
    (hex : ∃ vs, ArgValue.array vs ∈ args)
    (hlen : ∀ vs, ArgValue.array vs ∈ args → vs.length = n) :
    ∃ l, calculateFilter fname func args = some l ∧ l.length = n ∧
      ∀ i, i < n →
        l[i]? = some (func (args.map fun a => ArgValue.scalar (projArg a i))) := by
  rcases broadcastLen_of_uniform args n hlen with h | ⟨h, hna⟩
  · refine ⟨(List.range n).map fun i => func (args.map fun a => ArgValue.scalar (projArg a i)),
      by simp [calculateFilter, npVectorize, h], by simp, ?_⟩
    intro i hi
    rw [List.getElem?_map, List.getElem?_range hi]
    rfl
  · rcases hex with ⟨vs, hvs⟩
    exact absurd hvs (hna vs)

theorem setCol_getCol {V : Type} (df : DFrame V) (name : String) (vals : List V)
    (f : String) :
    (df.setCol name vals).getCol f = if f = name then some vals else df.getCol f := by
  unfold DFrame.setCol DFrame.getCol
  by_cases hmem : (df.cols.lookup name).isSome
  · rw [if_pos hmem]
    simp only
    rw [lookup_map_replace]
    by_cases hf : f = name
    · obtain ⟨w, hw⟩ := Option.isSome_iff_exists.mp hmem
      simp [hf, hw]
    · simp [hf]
  · rw [if_neg hmem]
    simp only
    rw [lookup_append]
    have hnone : df.cols.lookup name = none := Option.not_isSome_iff_eq_none.mp hmem
    by_cases hf : f = name
    · subst hf; simp [hnone, List.lookup]
    · have h1 : (f == name) = false := by simp [hf]
      cases h : df.cols.lookup f with
      | some w => simp [h, hf]
      | none => simp [h, List.lookup, h1, hf]

theorem setCol_colNames {V : Type} (df : DFrame V) (name : String) (vals : List V) :
    (df.setCol name vals).colNames =
      if (df.cols.lookup name).isSome then df.colNames else df.colNames ++ [name] := by
  unfold DFrame.setCol DFrame.colNames
  by_cases hmem : (df.cols.lookup name).isSome
  · rw [if_pos hmem, if_pos hmem]
    simp only [List.map_map]
    congr 1
    funext p
    by_cases hp : p.1 = name
    · simp [Function.comp, hp]
    · simp [Function.comp, hp]
  · rw [if_neg hmem, if_neg hmem]
    simp

theorem setCol_nrows {V : Type} (df : DFrame V) (name : String) (vals : List V) :
    (df.setCol name vals).nrows = df.nrows := by
  unfold DFrame.setCol
  by_cases hmem : (df.cols.lookup name).isSome
  · rw [if_pos hmem]
  · rw [if_neg hmem]

theorem getCol_isSome_iff {V : Type} (df : DFrame V) (name : String) :
    (df.getCol name).isSome = true ↔ name ∈ df.colNames := by
  unfold DFrame.getCol DFrame.colNames
  exact lookup_isSome_iff_mem_keys df.cols name

theorem resolveArgsLoop_length {V : Type} (df : DFrame V) (agg : List (String × V))
    (ext : List String) (feature : String) :
    ∀ args acc i o ad i' o',
      resolveArgsLoop df agg ext feature args acc i o = .ok (ad, i', o') →
      ad.length = acc.length + args.length := by
  intro args
  induction args with
  | nil =>
    intro acc i o ad i' o' h
    simp [resolveArgsLoop] at h
    simp [h.1]
  | cons arg rest ih =>
    intro acc i o ad i' o' h
    simp only [resolveArgsLoop] at h
    cases hagg : agg.lookup arg with
    | some v =>
      simp only [hagg] at h
      have := ih _ _ _ _ _ _ h
      simp [this]; omega
    | none =>
      simp only [hagg] at h
      by_cases hext : ext.contains arg = true
      · simp only [hext, if_true] at h
        cases hcol : df.getCol arg with
        | none => simp [hcol] at h
        | some vs =>
          simp only [hcol] at h
          cases hh : vs.head? with
          | none => simp [hh] at h
          | some v =>
            simp only [hh] at h
            have := ih _ _ _ _ _ _ h
            simp [this]; omega
      · simp only [Bool.not_eq_true] at hext
        simp only [hext, Bool.false_eq_true, if_false] at h
        cases hcol : df.getCol arg with
        | some vs =>
          simp only [hcol] at h
          have := ih _ _ _ _ _ _ h
          simp [this]; omega
        | none => simp [hcol] at h

theorem resolveArgsLoop_flags {V : Type} (df : DFrame V) (agg : List (String × V))
    (ext : List String) (feature : String) :
    ∀ args acc i o ad i' o',
      resolveArgsLoop df agg ext feature args acc i o = .ok (ad, i', o') →
      i' = (i || specInFlg df agg ext args) ∧ o' = (o || specOutFlg df agg ext args) := by
  intro args
  induction args with
  | nil =>
    intro acc i o ad i' o' h
    simp [resolveArgsLoop] at h
    simp [specInFlg, specOutFlg, h.2.1.symm, h.2.2.symm]
  | cons arg rest ih =>
    intro acc i o ad i' o' h
    simp only [resolveArgsLoop] at h
    cases hagg : agg.lookup arg with
    | some v =>
      simp only [hagg] at h
      obtain ⟨h1, h2⟩ := ih _ _ _ _ _ _ h
      refine ⟨?_, ?_⟩
      · simp only [specInFlg, List.any_cons, hagg] at h1 ⊢
        simp [h1]
      · simp only [specOutFlg, List.any_cons, hagg] at h2 ⊢
        simp [h2]
    | none =>
      simp only [hagg] at h
      by_cases hext : ext.contains arg = true
      · simp only [hext, if_true] at h
        cases hcol : df.getCol arg with
        | none => simp [hcol] at h
        | some vs =>
          simp only [hcol] at h
          cases hh : vs.head? with
          | none => simp [hh] at h
          | some v =>
            simp only [hh] at h
            obtain ⟨h1, h2⟩ := ih _ _ _ _ _ _ h
            refine ⟨?_, ?_⟩
            · simp only [specInFlg, List.any_cons, hagg, hext] at h1 ⊢
              simp [h1]
            · simp only [specOutFlg, List.any_cons, hagg, hext] at h2 ⊢
              simp [h2]
      · simp only [Bool.not_eq_true] at hext
        simp only [hext, Bool.false_eq_true, if_false] at h
        cases hcol : df.getCol arg with
        | some vs =>
          simp only [hcol] at h
          obtain ⟨h1, h2⟩ := ih _ _ _ _ _ _ h
          refine ⟨?_, ?_⟩
          · simp only [specInFlg, List.any_cons, hagg, hext, hcol] at h1 ⊢
            simp [h1]
          · simp only [specOutFlg, List.any_cons, hagg, hext] at h2 ⊢
            simp [h2]
        | none => simp [hcol] at h

/-- CLAIM C1.  In `process_group`, a step that actually executes a feature
(not skipped, arguments resolved) routes it as a pure function of the
flags: the loop-computed `in_flg` and `out_flg` coincide with their
declarative definitions, and the step computes the feature as a FILTER
(result appended to the row table as a column named after the feature,
recorded in `filters_calculated`) exactly when `in_flg` is true and
`is_aggregation` is false; in every other flag combination it computes it
as an ATTRIBUTE (result stored in the scalar map under the feature's
name). -/
theorem c1_four_case_routing {V : Type} [Inhabited V] (cfg : CfgModel V)
    (feature : String) (rest : List String) (df : DFrame V)
    (agg : List (String × V)) (fc : List String)
    (func : List (ArgValue V) → V) (args : List String) (flg : Bool)
    (argsData : List (ArgValue V)) (inFlg outFlg : Bool) (col : List V)
    (hskip : df.colNames.contains feature = false)
    (hf : cfg.feature_funcs.lookup feature = some func)
    (ha : cfg.feature_args.lookup feature = some args)
    (hg : cfg.feature_groupby_flg.lookup feature = some flg)
    (hres : resolveArgsLoop df agg cfg.ext_cols_list feature args [] false false =
      .ok (argsData, inFlg, outFlg))
    (hcol : calculateFilter feature func argsData = some col) :
    inFlg = specInFlg df agg cfg.ext_cols_list args ∧
    outFlg = specOutFlg df agg cfg.ext_cols_list args ∧
    processGroupAux cfg (feature :: rest) df agg fc =
      (if specInFlg df agg cfg.ext_cols_list args && !flg then
        processGroupAux cfg rest (df.setCol feature col) agg (fc ++ [feature])
      else
        processGroupAux cfg rest df
          (insertAssoc agg feature (calculateAttribute feature func argsData)) fc) := by
  have hflags := resolveArgsLoop_flags df agg cfg.ext_cols_list feature args
    [] false false argsData inFlg outFlg hres
  have hin : inFlg = specInFlg df agg cfg.ext_cols_list args := by
    simpa using hflags.1
  have hout : outFlg = specOutFlg df agg cfg.ext_cols_list args := by
    simpa using hflags.2
  refine ⟨hin, hout, ?_⟩
  have hlen := resolveArgsLoop_length df agg cfg.ext_cols_list feature args
    [] false false argsData inFlg outFlg hres
  simp only [List.length_nil, Nat.zero_add] at hlen
  rw [← hin]
  simp only [processGroupAux, hskip, Bool.false_eq_true, if_false, hf, ha, hg, hres]
  rw [if_neg (by simp [hlen])]
  by_cases hcase : (inFlg && !flg) = true
  · simp only [hcase, if_true, hcol]
  · simp only [hcase, Bool.false_eq_true, if_false]

theorem c1_witness :
    resolveArgsLoop dfC1w [("qsum", (5 : Int))] [] "above" ["q", "qsum"] [] false false =
      .ok ([ArgValue.array [2, 3], ArgValue.scalar 5], true, true) ∧
    processGroupAux cfgC1w ["above"] dfC1w [("qsum", (5 : Int))] [] =
      processGroupAux cfgC1w [] (dfC1w.setCol "above" [0, 1]) [("qsum", (5 : Int))]
        ["above"] := by
  constructor
  · rfl
  · have h := c1_four_case_routing cfgC1w "above" [] dfC1w [("qsum", (5 : Int))] []
      (fun l => match l with
        | [ArgValue.scalar q, ArgValue.scalar s] => if 2 * q ≥ s then 1 else 0
        | _ => 0)
      ["q", "qsum"] false [ArgValue.array [2, 3], ArgValue.scalar 5] true true [0, 1]
      (by decide) rfl rfl rfl rfl rfl
    rw [h.2.2]
    rfl

theorem processGroupAux_keeps_col {V : Type} [Inhabited V] (cfg : CfgModel V)
    (f : String) :
    ∀ seq df agg fc r,
      df.colNames.contains f = true →
      processGroupAux cfg seq df agg fc = .ok r →
      r.data_in.getCol f = df.getCol f ∧
      (f ∈ r.filters_calculated ↔ f ∈ fc) ∧
      r.agg_results.lookup f = agg.lookup f := by
  intro seq
  induction seq with
  | nil =>
    intro df agg fc r hmem h
    simp [processGroupAux] at h
    simp [← h]
  | cons g rest ih =>
    intro df agg fc r hmem h
    simp only [processGroupAux] at h
    by_cases hskip : df.colNames.contains g = true
    · simp only [hskip, if_true] at h
      exact ih df agg fc r hmem h
    · have hne : g ≠ f := by
        intro hgf
        subst hgf
        exact hskip hmem
      simp only [Bool.not_eq_true] at hskip
      simp only [hskip, Bool.false_eq_true, if_false] at h
      cases hfun : cfg.feature_funcs.lookup g with
      | none => simp [hfun] at h
      | some func =>
        simp only [hfun] at h
        cases harg : cfg.feature_args.lookup g with
        | none => simp [harg] at h
        | some args =>
          simp only [harg] at h
          cases hflg : cfg.feature_groupby_flg.lookup g with
          | none => simp [hflg] at h
          | some flg =>
            simp only [hflg] at h
            cases hres : resolveArgsLoop df agg cfg.ext_cols_list g args [] false false with
            | error e => simp [hres] at h
            | ok tr =>
              simp only [hres] at h
              obtain ⟨ad, i', o'⟩ := tr
              by_cases hl : ad.length ≠ args.length
              · rw [if_pos hl] at h
                exact ih df agg fc r hmem h
              · rw [if_neg hl] at h
                by_cases hcase : (i' && !flg) = true
                · rw [if_pos hcase] at h
                  cases hcol : calculateFilter g func ad with
                  | none => simp [hcol] at h
                  | some col =>
                    simp only [hcol] at h
                    have hmem' : (df.setCol g col).colNames.contains f = true := by
                      rw [setCol_colNames]
                      by_cases hc : (df.cols.lookup g).isSome = true
                      · rw [if_pos hc]; exact hmem
                      · rw [if_neg hc]
                        rw [contains_iff_mem] at hmem ⊢
                        exact List.mem_append_left _ hmem
                    have := ih _ _ _ _ hmem' h
                    refine ⟨?_, ?_, this.2.2⟩
                    · rw [this.1, setCol_getCol, if_neg (fun hh => hne hh.symm)]
                    · rw [this.2.1]
                      simp [hne.symm]
                · rw [if_neg hcase] at h
                  have := ih _ _ _ _ hmem h
                  refine ⟨this.1, this.2.1, ?_⟩
                  rw [this.2.2, lookup_insertAssoc, if_neg (fun hh => hne hh.symm)]

/-- CLAIM C8.  A feature of `exec_seq` that is already a column of the
group's working row table when the engine reaches it is skipped: its body
is never invoked for that group (it is recorded neither among the
calculated filters nor in the scalar map) and the existing column's values
come out of `process_group` unchanged. -/
theorem c8_skip_preserves {V : Type} [Inhabited V] (cfg : CfgModel V)
    (df0 : DFrame V) (f : String) (r : GroupResult V)
    (hmem : df0.colNames.contains f = true)
    (hok : processGroup df0 cfg = .ok r) :
    r.data_in.getCol f = df0.getCol f ∧
    f ∉ r.filters_calculated ∧
    r.agg_results.lookup f = none := by
  have h := processGroupAux_keeps_col cfg f cfg.exec_seq df0 [] [] r hmem hok
  refine ⟨h.1, ?_, ?_⟩
  · rw [h.2.1]; simp
  · rw [h.2.2]; simp [List.lookup]

theorem c8_witness :
    ∃ r, processGroup dfC8 cfgC1w = .ok r ∧
      r.data_in.getCol "above" = dfC8.getCol "above" ∧
      "above" ∉ r.filters_calculated ∧
      r.agg_results.lookup "above" = none := by
  have hok : processGroup dfC8 cfgC1w =
      .ok ⟨⟨2, [("q", [2, 3]), ("above", [5, 5])]⟩, [("qsum", 5)], []⟩ := rfl
  exact ⟨_, hok, c8_skip_preserves cfgC1w dfC8 "above" _ (by decide) hok⟩

theorem c9_witness :
    (∃ vs, ArgValue.array vs ∈ argsC9) ∧
    ∃ l, calculateFilter "w" funcC9 argsC9 = some l ∧ l.length = 3 ∧
      ∀ i, i < 3 →
        l[i]? = some (funcC9 (argsC9.map fun a => ArgValue.scalar (projArg a i))) := by
  refine ⟨⟨[1, 2, 3], by decide⟩, ?_⟩
  exact c9_calculate_filter_rowwise "w" funcC9 argsC9 3 ⟨[1, 2, 3], by decide⟩
    (by intro vs h; simp [argsC9] at h; subst h; rfl)

theorem resolveArgsEnrichment_length {V : Type} (df : DFrame V) (feature : String) :
    ∀ args argsData,
      resolveArgsEnrichment df feature args = .ok argsData →
      argsData.length = args.length := by
  intro args
  induction args with
  | nil =>
    intro argsData h
    simp [resolveArgsEnrichment] at h
    simp [← h]
  | cons arg rest ih =>
    intro argsData h
    simp only [resolveArgsEnrichment] at h
    cases hcol : df.getCol arg with
    | none => simp [hcol] at h
    | some vs =>
      simp only [hcol] at h
      cases hr : resolveArgsEnrichment df feature rest with
      | error e => simp [hr, Except.map] at h
      | ok acc =>
        simp only [hr, Except.map, Except.ok.injEq] at h
        subst h
        simp [ih acc hr]

theorem processNoGroupingAux_spec {V : Type} [Inhabited V] (cfg : CfgModel V) :
    ∀ seq df fc res,
      processNoGroupingAux cfg seq df fc = .ok res →
      (∃ nw, res.2 = fc ++ nw ∧
        (∀ g ∈ nw, cfg.feature_groupby_flg.lookup g = some false) ∧
        (∀ name, name ∈ res.1.colNames ↔ name ∈ df.colNames ∨ name ∈ nw)) ∧
      (∀ f ∈ seq, cfg.feature_groupby_flg.lookup f = some false →
        f ∈ res.1.colNames) := by
  intro seq
  induction seq with
  | nil =>
    intro df fc res h
    simp [processNoGroupingAux] at h
    refine ⟨⟨[], by simp [← h], by simp, ?_⟩, by simp⟩
    intro name
    simp [← h]
  | cons f rest ih =>
    intro df fc res h
    simp only [processNoGroupingAux] at h
    by_cases hskip : df.colNames.contains f = true
    · simp only [hskip, if_true] at h
      obtain ⟨⟨nw, h1, h2, h3⟩, h4⟩ := ih df fc res h
      refine ⟨⟨nw, h1, h2, h3⟩, ?_⟩
      intro g hg hflg
      rcases List.mem_cons.mp hg with rfl | hg'
      · exact (h3 g).mpr (Or.inl ((contains_iff_mem _ _).mp hskip))
      · exact h4 g hg' hflg
    · simp only [Bool.not_eq_true] at hskip
      simp only [hskip, Bool.false_eq_true, if_false] at h
      cases hfun : cfg.feature_funcs.lookup f with
      | none => simp [hfun] at h
      | some func =>
        simp only [hfun] at h
        cases harg : cfg.feature_args.lookup f with
        | none => simp [harg] at h
        | some args =>
          simp only [harg] at h
          cases hflg : cfg.feature_groupby_flg.lookup f with
          | none => simp [hflg] at h
          | some groupbyFlg =>
            simp only [hflg] at h
            by_cases hgb : groupbyFlg = true
            · rw [if_pos hgb] at h
              obtain ⟨⟨nw, h1, h2, h3⟩, h4⟩ := ih df fc res h
              refine ⟨⟨nw, h1, h2, h3⟩, ?_⟩
              intro g hg hflg'
              rcases List.mem_cons.mp hg with rfl | hg'
              · rw [hflg, hgb] at hflg'
                exact absurd hflg' (by simp)
              · exact h4 g hg' hflg'
            · rw [if_neg hgb] at h
              cases hres : resolveArgsEnrichment df f args with
              | error e => simp [hres] at h
              | ok argsData =>
                simp only [hres] at h
                by_cases hl : argsData.length ≠ args.length
                · rw [if_pos hl] at h
                  obtain ⟨⟨nw, h1, h2, h3⟩, h4⟩ := ih df fc res h
                  refine ⟨⟨nw, h1, h2, h3⟩, ?_⟩
                  intro g hg hflg'
                  rcases List.mem_cons.mp hg with rfl | hg'
                  · -- the length guard cannot fire: resolution returns one
                    -- value per argument
                    exact absurd (resolveArgsEnrichment_length df g args argsData hres) hl
                  · exact h4 g hg' hflg'
                · rw [if_neg hl] at h
                  cases hcol : calculateFilter f func argsData with
                  | none => simp [hcol] at h
                  | some col =>
                    simp only [hcol] at h
                    have hlk : (df.cols.lookup f).isSome ≠ true := by
                      intro hh
                      have := (getCol_isSome_iff df f).mp hh
                      rw [← contains_iff_mem] at this
                      rw [this] at hskip
                      exact absurd hskip (by simp)
                    have hnames : (df.setCol f col).colNames = df.colNames ++ [f] := by
                      rw [setCol_colNames, if_neg hlk]
                    obtain ⟨⟨nw, h1, h2, h3⟩, h4⟩ := ih (df.setCol f col) (fc ++ [f]) res h
                    refine ⟨⟨f :: nw, by simp [h1], ?_, ?_⟩, ?_⟩
                    · intro g hg
                      rcases List.mem_cons.mp hg with rfl | hg'
                      · rw [hflg]
                        simp [Bool.not_eq_true] at hgb
                        rw [hgb]
                      · exact h2 g hg'
                    · intro name
                      rw [h3 name, hnames]
                      simp [List.mem_append, or_assoc, or_comm, or_left_comm]
                    · intro g hg hflg'
                      rcases List.mem_cons.mp hg with rfl | hg'
                      · refine (h3 g).mpr (Or.inl ?_)
                        rw [hnames]
                        exact List.mem_append_right _ (List.mem_singleton.mpr rfl)
                      · exact h4 g hg' hflg'

/-- CLAIM C6 (amended).  In enrichment mode, on a successful run: the
attributes table is empty; every aggregation-flagged feature that is not
already a column of the input never appears as a column of the output;
and every feature with `is_aggregation=false` appears as a column, being
computed as a filter over the whole dataset when not already present. -/
theorem c6_enrichment_mode {V : Type} [Inhabited V] (df : DFrame V)
    (cfg : CfgModel V) (fdf adf : DFrame V) (fcs : List String)
    (hok : processNoGrouping df cfg = .ok (fdf, adf, fcs)) :
    adf = emptyDF V ∧
    (∀ f ∈ cfg.exec_seq, cfg.feature_groupby_flg.lookup f = some true →
      f ∉ df.colNames → f ∉ fdf.colNames) ∧
    (∀ f ∈ cfg.exec_seq, cfg.feature_groupby_flg.lookup f = some false →
      f ∈ fdf.colNames) ∧
    (∀ f ∈ cfg.exec_seq, cfg.feature_groupby_flg.lookup f = some false →
      f ∉ df.colNames → f ∈ fcs) := by
  unfold processNoGrouping at hok
  cases haux : processNoGroupingAux cfg cfg.exec_seq df [] with
  | error e => rw [haux] at hok; exact absurd hok (by simp [Except.map])
  | ok res =>
    rw [haux] at hok
    simp only [Except.map, Except.ok.injEq, Prod.mk.injEq] at hok
    obtain ⟨he1, he2, he3⟩ := hok
    obtain ⟨⟨nw, h1, h2, h3⟩, h4⟩ :=
      processNoGroupingAux_spec cfg cfg.exec_seq df [] res haux
    refine ⟨he2.symm, ?_, ?_, ?_⟩
    · intro f hf hflg hmem hcontra
      rw [← he1] at hcontra
      rcases (h3 f).mp hcontra with hd | hn
      · exact hmem hd
      · rw [h2 f hn] at hflg
        exact absurd hflg (by simp)
    · intro f hf hflg
      rw [← he1]
      exact h4 f hf hflg
    · intro f hf hflg hmem
      have hcol : f ∈ res.1.colNames := h4 f hf hflg
      rcases (h3 f).mp hcol with hd | hn
      · exact absurd hd hmem
      · rw [← he3, h1]
        simpa using hn

theorem c6_counterexample :
    cfgC6cx.feature_groupby_flg.lookup "x" = some true ∧
    "x" ∈ cfgC6cx.exec_seq ∧
    ∃ fdf adf fcs, processNoGrouping dfC6cx cfgC6cx = .ok (fdf, adf, fcs) ∧
      "x" ∈ fdf.colNames :=
  ⟨rfl, by decide, ⟨1, [("x", [7])]⟩, emptyDF Int, [], rfl, by decide⟩

theorem c6_witness :
    ∃ fdf adf fcs, processNoGrouping dfC6w cfgC6w = .ok (fdf, adf, fcs) ∧
      adf = emptyDF Int ∧ "s" ∉ fdf.colNames ∧ "t" ∈ fdf.colNames ∧ "t" ∈ fcs := by
  have hok : processNoGrouping dfC6w cfgC6w =
      .ok (⟨2, [("q", [2, 3]), ("t", [3, 4])]⟩, emptyDF Int, ["t"]) := rfl
  have h := c6_enrichment_mode dfC6w cfgC6w _ _ _ hok
  exact ⟨_, _, _, hok, h.1, h.2.1 "s" (by decide) rfl (by decide),
    h.2.2.1 "t" (by decide) rfl, h.2.2.2 "t" (by decide) rfl (by decide)⟩

theorem keys_contains_eq_lookup_isSome {β : Type} (l : List (String × β)) (k : String) :
    (l.map Prod.fst).contains k = (l.lookup k).isSome := by
  by_cases h : (l.lookup k).isSome = true
  · rw [h]
    exact (contains_iff_mem _ _).mpr ((lookup_isSome_iff_mem_keys l k).mp h)
  · rw [Bool.not_eq_true] at h
    rw [h, Bool.eq_false_iff]
    intro hc
    have hm := (lookup_isSome_iff_mem_keys l k).mpr ((contains_iff_mem _ _).mp hc)
    rw [h] at hm
    exact absurd hm (by simp)

theorem keys_insertAssoc {β : Type} (l : List (String × β)) (k : String) (v : β) :
    (insertAssoc l k v).map Prod.fst =
      if (l.lookup k).isSome then l.map Prod.fst else l.map Prod.fst ++ [k] := by
  unfold insertAssoc
  by_cases h : (l.lookup k).isSome = true
  · rw [if_pos h, if_pos h, List.map_map]
    congr 1
    funext p
    by_cases hp : p.1 = k
    · simp [Function.comp, hp]
    · simp [Function.comp, hp]
  · rw [if_neg h, if_neg h]
    simp

theorem any_congr_mem {α : Type} (l : List α) (f g : α → Bool)
    (h : ∀ a ∈ l, f a = g a) : l.any f = l.any g := by
  induction l with
  | nil => rfl
  | cons a rest ih =>
    simp only [List.any_cons, h a (List.mem_cons_self _ _),
      ih fun b hb => h b (List.mem_cons_of_mem _ hb)]

theorem all_congr_mem {α : Type} (l : List α) (f g : α → Bool)
    (h : ∀ a ∈ l, f a = g a) : l.all f = l.all g := by
  induction l with
  | nil => rfl
  | cons a rest ih =>
    simp only [List.all_cons, h a (List.mem_cons_self _ _),
      ih fun b hb => h b (List.mem_cons_of_mem _ hb)]

theorem setCol_wf {V : Type} (df : DFrame V) (name : String) (vals : List V)
    (hwf : df.wf) (hv : vals.length = df.nrows) : (df.setCol name vals).wf := by
  intro p hp
  rw [setCol_nrows]
  unfold DFrame.setCol at hp
  by_cases h : (df.cols.lookup name).isSome = true
  · rw [if_pos h] at hp
    simp only at hp
    obtain ⟨q, hq, hfq⟩ := List.mem_map.mp hp
    by_cases hq1 : q.1 = name
    · rw [if_pos hq1] at hfq
      rw [← hfq]
      exact hv
    · rw [if_neg hq1] at hfq
      rw [← hfq]
      exact hwf q hq
  · rw [if_neg h] at hp
    rcases List.mem_append.mp hp with hm | hm
    · exact hwf p hm
    · simp only [List.mem_singleton] at hm
      rw [hm]
      exact hv

theorem calculateFilter_total {V : Type} [Inhabited V] (fname : String)
    (func : List (ArgValue V) → V) (ad : List (ArgValue V)) (n : Nat)
    (hlen : ∀ vs, ArgValue.array vs ∈ ad → vs.length = n) :
    ∃ col, calculateFilter fname func ad = some col ∧
      ((∃ vs, ArgValue.array vs ∈ ad) → col.length = n) := by
  rcases broadcastLen_of_uniform ad n hlen with h | ⟨h, hna⟩
  · exact ⟨(List.range n).map fun i => func (ad.map fun a => ArgValue.scalar (projArg a i)),
      by simp [calculateFilter, npVectorize, h], fun _ => by simp⟩
  · refine ⟨[func ad], by simp [calculateFilter, npVectorize, h], ?_⟩
    rintro ⟨vs, hvs⟩
    exact absurd hvs (hna vs)

theorem resolveArgsLoop_total_ok {V : Type} (df : DFrame V)
    (agg : List (String × V)) (ext : List String) (feature : String)
    (hwf : df.wf)
    (hext : ∀ a, ext.contains a = true → (df.getCol a).isSome = true)
    (hn : 0 < df.nrows) :
    ∀ args acc i o,
      (args.all fun a =>
        (agg.lookup a).isSome || ext.contains a || (df.getCol a).isSome) = true →
      (∀ vs, ArgValue.array vs ∈ acc → vs.length = df.nrows) →
      ∃ ad i' o', resolveArgsLoop df agg ext feature args acc i o = .ok (ad, i', o') ∧
        (∃ tail, ad = acc ++ tail) ∧
        (∀ vs, ArgValue.array vs ∈ ad → vs.length = df.nrows) ∧
        (i' = true → i = true ∨ ∃ vs, ArgValue.array vs ∈ ad) := by
  intro args
  induction args with
  | nil =>
    intro acc i o hall hacc
    exact ⟨acc, i, o, rfl, ⟨[], by simp⟩, hacc, fun h => Or.inl h⟩
  | cons a rest ih =>
    intro acc i o hall hacc
    rw [List.all_cons, Bool.and_eq_true] at hall
    obtain ⟨hhead, hrest⟩ := hall
    simp only [resolveArgsLoop]
    cases hagg : agg.lookup a with
    | some v =>
      have hacc' : ∀ vs, ArgValue.array vs ∈ acc ++ [ArgValue.scalar v] →
          vs.length = df.nrows := by
        intro vs hm
        rcases List.mem_append.mp hm with hm | hm
        · exact hacc vs hm
        · simp at hm
      obtain ⟨ad, i', o', hok, ⟨tail, htail⟩, hlen, hflag⟩ :=
        ih (acc ++ [ArgValue.scalar v]) i true hrest hacc'
      exact ⟨ad, i', o', hok, ⟨ArgValue.scalar v :: tail, by simp [htail]⟩, hlen, hflag⟩
    | none =>
      by_cases hextc : ext.contains a = true
      · simp only [hextc, if_true]
        have hcolS := hext a hextc
        obtain ⟨vs, hvs⟩ := Option.isSome_iff_exists.mp hcolS
        simp only [hvs]
        have hvslen : vs.length = df.nrows := hwf (a, vs) (lookup_mem hvs)
        cases hv0 : vs.head? with
        | none =>
          rw [List.head?_eq_none_iff.mp hv0] at hvslen
          rw [← hvslen] at hn
          simp at hn
        | some v0 =>
          have hacc' : ∀ ws, ArgValue.array ws ∈ acc ++ [ArgValue.scalar v0] →
              ws.length = df.nrows := by
            intro ws hm
            rcases List.mem_append.mp hm with hm | hm
            · exact hacc ws hm
            · simp at hm
          obtain ⟨ad, i', o', hok, ⟨tail, htail⟩, hlen, hflag⟩ :=
            ih (acc ++ [ArgValue.scalar v0]) i true hrest hacc'
          exact ⟨ad, i', o', hok, ⟨ArgValue.scalar v0 :: tail, by simp [htail]⟩, hlen, hflag⟩
      · have hextc' : ext.contains a = false := by simpa using hextc
        simp only [hextc', Bool.false_eq_true, if_false]
        have hgc : (df.getCol a).isSome = true := by
          rw [hagg] at hhead
          simpa only [Option.isSome_none, Bool.false_or, hextc'] using hhead
        obtain ⟨vs, hvs⟩ := Option.isSome_iff_exists.mp hgc
        simp only [hvs]
        have hvslen : vs.length = df.nrows := hwf (a, vs) (lookup_mem hvs)
        have hacc' : ∀ ws, ArgValue.array ws ∈ acc ++ [ArgValue.array vs] →
            ws.length = df.nrows := by
          intro ws hm
          rcases List.mem_append.mp hm with hm | hm
          · exact hacc ws hm
          · simp only [List.mem_singleton, ArgValue.array.injEq] at hm
            rw [hm]
            exact hvslen
        obtain ⟨ad, i', o', hok, ⟨tail, htail⟩, hlen, hflag⟩ :=
          ih (acc ++ [ArgValue.array vs]) true o hrest hacc'
        refine ⟨ad, i', o', hok, ⟨ArgValue.array vs :: tail, by simp [htail]⟩, hlen, ?_⟩
        intro _
        refine Or.inr ⟨vs, ?_⟩
        rw [htail]
        exact List.mem_append_left _ (List.mem_append_right _ (List.mem_singleton.mpr rfl))

theorem resolveArgsLoop_unresolved {V : Type} (df : DFrame V)
    (agg : List (String × V)) (ext : List String) (feature : String)
    (hwf : df.wf)
    (hext : ∀ a, ext.contains a = true → (df.getCol a).isSome = true)
    (hn : 0 < df.nrows) :
    ∀ args acc i o,
      (args.all fun a =>
        (agg.lookup a).isSome || ext.contains a || (df.getCol a).isSome) = false →
      ∃ a', resolveArgsLoop df agg ext feature args acc i o =
        .error (.unresolvedArg feature a') := by
  intro args
  induction args with
  | nil => intro acc i o hall; simp [List.all_nil] at hall
  | cons a rest ih =>
    intro acc i o hall
    rw [List.all_cons] at hall
    simp only [resolveArgsLoop]
    by_cases hhead :
        ((agg.lookup a).isSome || ext.contains a || (df.getCol a).isSome) = true
    · have hrest : (rest.all fun a =>
          (agg.lookup a).isSome || ext.contains a || (df.getCol a).isSome) = false := by
        rw [hhead] at hall
        simpa using hall
      cases hagg : agg.lookup a with
      | some v => exact ih (acc ++ [ArgValue.scalar v]) i true hrest
      | none =>
        by_cases hextc : ext.contains a = true
        · simp only [hextc, if_true]
          obtain ⟨vs, hvs⟩ := Option.isSome_iff_exists.mp (hext a hextc)
          simp only [hvs]
          have hvslen : vs.length = df.nrows := hwf (a, vs) (lookup_mem hvs)
          cases hv0 : vs.head? with
          | none =>
            rw [List.head?_eq_none_iff.mp hv0] at hvslen
            rw [← hvslen] at hn
            simp at hn
          | some v0 =>
            exact ih (acc ++ [ArgValue.scalar v0]) i true hrest
        · have hextc' : ext.contains a = false := by simpa using hextc
          simp only [hextc', Bool.false_eq_true, if_false]
          have hgc : (df.getCol a).isSome = true := by
            rw [hagg] at hhead
            simpa only [Option.isSome_none, Bool.false_or, hextc'] using hhead
          obtain ⟨vs, hvs⟩ := Option.isSome_iff_exists.mp hgc
          simp only [hvs]
          exact ih (acc ++ [ArgValue.array vs]) true o hrest
    · have h3 : (agg.lookup a).isSome = false ∧ ext.contains a = false ∧
          (df.getCol a).isSome = false := by
        constructor
        · cases h : (agg.lookup a).isSome
          · rfl
          · exact absurd (by rw [h]; simp) hhead
        constructor
        · cases h : ext.contains a
          · rfl
          · exact absurd (by rw [h]; simp) hhead
        · cases h : (df.getCol a).isSome
          · rfl
          · exact absurd (by rw [h]; simp) hhead
      obtain ⟨ha1, ha2, ha3⟩ := h3
      have hagg : agg.lookup a = none := Option.not_isSome_iff_eq_none.mp (by simp [ha1])
      have hcol : df.getCol a = none := Option.not_isSome_iff_eq_none.mp (by simp [ha3])
      simp only [hagg, ha2, Bool.false_eq_true, if_false, hcol]
      exact ⟨a, rfl⟩

theorem processGroupAux_ok_iff_names {V : Type} [Inhabited V] (cfg : CfgModel V) :
    ∀ seq df agg,
      df.wf → 0 < df.nrows →
      (∀ a, cfg.ext_cols_list.contains a = true → (df.getCol a).isSome = true) →
      (∀ f ∈ seq, (cfg.feature_funcs.lookup f).isSome = true ∧
        (cfg.feature_args.lookup f).isSome = true ∧
        (cfg.feature_groupby_flg.lookup f).isSome = true) →
      ∀ fc,
        ((∃ r, processGroupAux cfg seq df agg fc = .ok r) ↔
          execNamesOk cfg seq df.colNames (agg.map Prod.fst) = true) ∧
        (∀ e, processGroupAux cfg seq df agg fc = .error e →
          ∃ g a, e = .unresolvedArg g a) := by
  intro seq
  induction seq with
  | nil =>
    intro df agg hwf hn hext hcov fc
    constructor
    · simp [processGroupAux, execNamesOk]
    · intro e he
      simp [processGroupAux] at he
  | cons f rest ih =>
    intro df agg hwf hn hext hcov fc
    have hcovf := hcov f (List.mem_cons_self _ _)
    have hcovr : ∀ g ∈ rest, (cfg.feature_funcs.lookup g).isSome = true ∧
        (cfg.feature_args.lookup g).isSome = true ∧
        (cfg.feature_groupby_flg.lookup g).isSome = true :=
      fun g hg => hcov g (List.mem_cons_of_mem _ hg)
    by_cases hskip : df.colNames.contains f = true
    · have hstep : processGroupAux cfg (f :: rest) df agg fc =
          processGroupAux cfg rest df agg fc := by
        simp only [processGroupAux, hskip, if_true]
      have hsim : execNamesOk cfg (f :: rest) df.colNames (agg.map Prod.fst) =
          execNamesOk cfg rest df.colNames (agg.map Prod.fst) := by
        simp only [execNamesOk, hskip, if_true]
      rw [hstep, hsim]
      exact ih df agg hwf hn hext hcovr fc
    · obtain ⟨hf1, hf2, hf3⟩ := hcovf
      obtain ⟨func, hfun⟩ := Option.isSome_iff_exists.mp hf1
      obtain ⟨args, harg⟩ := Option.isSome_iff_exists.mp hf2
      obtain ⟨flg, hflg⟩ := Option.isSome_iff_exists.mp hf3
      have hskip' : df.colNames.contains f = false := by simpa using hskip
      have haggB : ∀ x, (agg.map Prod.fst).contains x = (agg.lookup x).isSome :=
        fun x => keys_contains_eq_lookup_isSome agg x
      have hcolB : ∀ x, df.colNames.contains x = (df.getCol x).isSome :=
        fun x => keys_contains_eq_lookup_isSome df.cols x
      have hallEq : (args.all fun a => (agg.map Prod.fst).contains a ||
            cfg.ext_cols_list.contains a || df.colNames.contains a) =
          (args.all fun a => (agg.lookup a).isSome || cfg.ext_cols_list.contains a ||
            (df.getCol a).isSome) :=
        all_congr_mem _ _ _ fun a _ => by rw [haggB a, hcolB a]
      have hanyEq : (args.any fun a => !((agg.map Prod.fst).contains a) &&
            !(cfg.ext_cols_list.contains a) && df.colNames.contains a) =
          specInFlg df agg cfg.ext_cols_list args := by
        unfold specInFlg
        refine any_congr_mem _ _ _ fun a _ => ?_
        rw [haggB a, hcolB a]
        cases agg.lookup a <;> simp
      by_cases hallB : (args.all fun a => (agg.lookup a).isSome ||
          cfg.ext_cols_list.contains a || (df.getCol a).isSome) = true
      · obtain ⟨ad, i', o', hok, ⟨tail, htail⟩, hlen, hflag⟩ :=
          resolveArgsLoop_total_ok df agg cfg.ext_cols_list f hwf hext hn args []
            false false hallB (by simp)
        have hlenEq : ad.length = args.length := by
          have := resolveArgsLoop_length df agg cfg.ext_cols_list f args [] false false
            ad i' o' hok
          simpa using this
        have hi' : i' = specInFlg df agg cfg.ext_cols_list args := by
          have := (resolveArgsLoop_flags df agg cfg.ext_cols_list f args [] false false
            ad i' o' hok).1
          simpa using this
        by_cases hcase : (i' && !flg) = true
        · have hadnE : ∃ vs, ArgValue.array vs ∈ ad := by
            have hi := ((Bool.and_eq_true _ _).mp hcase).1
            rcases hflag hi with h | h
            · exact absurd h (by simp)
            · exact h
          obtain ⟨col, hcol, hcollen⟩ := calculateFilter_total f func ad df.nrows hlen
          have hcoln : col.length = df.nrows := hcollen hadnE
          have hstep : processGroupAux cfg (f :: rest) df agg fc =
              processGroupAux cfg rest (df.setCol f col) agg (fc ++ [f]) := by
            simp only [processGroupAux, hskip', Bool.false_eq_true, if_false, hfun,
              harg, hflg, hok]
            rw [if_neg (by simp [hlenEq]), if_pos hcase]
            simp only [hcol]
          have hlkf : ¬ (df.cols.lookup f).isSome = true := by
            intro hh
            have h2 : df.colNames.contains f = true := by
              rw [hcolB f]
              exact hh
            rw [h2] at hskip'
            exact absurd hskip' (by simp)
          have hnames : (df.setCol f col).colNames = df.colNames ++ [f] := by
            rw [setCol_colNames, if_neg hlkf]
          have hsim : execNamesOk cfg (f :: rest) df.colNames (agg.map Prod.fst) =
              execNamesOk cfg rest (df.colNames ++ [f]) (agg.map Prod.fst) := by
            simp only [execNamesOk, hskip', Bool.false_eq_true, if_false, hfun, harg, hflg]
            rw [if_pos (by rw [hallEq]; exact hallB)]
            rw [if_pos (by rw [hanyEq, ← hi']; exact hcase)]
          rw [hstep, hsim, ← hnames]
          refine ih (df.setCol f col) agg (setCol_wf df f col hwf hcoln)
            (by rw [setCol_nrows]; exact hn) ?_ hcovr (fc ++ [f])
          intro a ha
          rw [setCol_getCol]
          by_cases haf : a = f
          · simp [haf]
          · rw [if_neg haf]
            exact hext a ha
        · have hstep : processGroupAux cfg (f :: rest) df agg fc =
              processGroupAux cfg rest df
                (insertAssoc agg f (calculateAttribute f func ad)) fc := by
            simp only [processGroupAux, hskip', Bool.false_eq_true, if_false, hfun,
              harg, hflg, hok]
            rw [if_neg (by simp [hlenEq]), if_neg hcase]
          have hkeys : (insertAssoc agg f (calculateAttribute f func ad)).map Prod.fst =
              if (agg.map Prod.fst).contains f then agg.map Prod.fst
              else agg.map Prod.fst ++ [f] := by
            rw [keys_insertAssoc, ← haggB f]
          have hsim : execNamesOk cfg (f :: rest) df.colNames (agg.map Prod.fst) =
              execNamesOk cfg rest df.colNames
                (if (agg.map Prod.fst).contains f then agg.map Prod.fst
                 else agg.map Prod.fst ++ [f]) := by
            simp only [execNamesOk, hskip', Bool.false_eq_true, if_false, hfun, harg, hflg]
            rw [if_pos (by rw [hallEq]; exact hallB)]
            rw [if_neg (by rw [hanyEq, ← hi']; exact hcase)]
          rw [hstep, hsim, ← hkeys]
          exact ih df (insertAssoc agg f (calculateAttribute f func ad)) hwf hn hext
            hcovr fc
      · have hallB' : (args.all fun a => (agg.lookup a).isSome ||
            cfg.ext_cols_list.contains a || (df.getCol a).isSome) = false := by
          simpa using hallB
        obtain ⟨a', herr⟩ := resolveArgsLoop_unresolved df agg cfg.ext_cols_list f hwf
          hext hn args [] false false hallB'
        have hstep : processGroupAux cfg (f :: rest) df agg fc =
            .error (.unresolvedArg f a') := by
          simp only [processGroupAux, hskip', Bool.false_eq_true, if_false, hfun,
            harg, hflg, herr]
        have hsim : execNamesOk cfg (f :: rest) df.colNames (agg.map Prod.fst) = false := by
          simp only [execNamesOk, hskip', Bool.false_eq_true, if_false, hfun, harg, hflg]
          rw [if_neg (by rw [hallEq, hallB']; simp)]
        rw [hstep, hsim]
        constructor
        · constructor
          · rintro ⟨r, hr⟩
            exact absurd hr (by simp)
          · intro hcontra
            exact absurd hcontra (by simp)
        · intro e he
          simp only [Except.error.injEq] at he
          exact ⟨f, a', he.symm⟩

/-- CLAIM C5.  Under a well-formed configuration (every scheduled feature
has metadata, external columns are genuine columns, the group has at least
one row and uniform column lengths), `process_group` raises an error
exactly when the name-level simulation finds an executed feature with an
argument in none of the three sources searched in priority order (scalar
map, external-column set, row columns); and every error it can raise is an
unresolved-argument error. -/
theorem c5_unresolved_argument_iff {V : Type} [Inhabited V] (df : DFrame V)
    (cfg : CfgModel V)
    (hwf : df.wf) (hn : 0 < df.nrows)
    (hext : ∀ a, cfg.ext_cols_list.contains a = true → (df.getCol a).isSome = true)
    (hcov : ∀ f ∈ cfg.exec_seq, (cfg.feature_funcs.lookup f).isSome = true ∧
      (cfg.feature_args.lookup f).isSome = true ∧
      (cfg.feature_groupby_flg.lookup f).isSome = true) :
    ((∃ e, processGroup df cfg = .error e) ↔
      execNamesOk cfg cfg.exec_seq df.colNames [] = false) ∧
    (∀ e, processGroup df cfg = .error e → ∃ g a, e = .unresolvedArg g a) := by
  have h := processGroupAux_ok_iff_names cfg cfg.exec_seq df [] hwf hn hext hcov []
  simp only [List.map_nil] at h
  unfold processGroup
  constructor
  · constructor
    · rintro ⟨e, he⟩
      cases hsim : execNamesOk cfg cfg.exec_seq df.colNames [] with
      | false => rfl
      | true =>
        obtain ⟨r, hr⟩ := h.1.mpr hsim
        rw [he] at hr
        exact absurd hr (by simp)
    · intro hsim
      cases hres : processGroupAux cfg cfg.exec_seq df [] [] with
      | error e => exact ⟨e, rfl⟩
      | ok r =>
        have := h.1.mp ⟨r, hres⟩
        rw [this] at hsim
        exact absurd hsim (by simp)
  · intro e he
    exact h.2 e he

theorem c5_witness :
    execNamesOk cfgC1w cfgC1w.exec_seq dfC1w.colNames [] = true ∧
    ¬ ∃ e, processGroup dfC1w cfgC1w = .error e := by
  have hc := c5_unresolved_argument_iff dfC1w cfgC1w
    (by intro p hp; simp [dfC1w] at hp; subst hp; rfl) (by decide)
    (by intro a h; simp [cfgC1w] at h) (by decide)
  refine ⟨rfl, fun he => ?_⟩
  exact absurd (hc.1.mp he) (by decide)

theorem mem_dropAllNAcols {granular : Type} (df : DFrame (Option granular))
    (p : String × List (Option granular)) :
    p ∈ (dropAllNAcols df).cols ↔ p ∈ df.cols ∧ (p.2.all cellIsNA) = false := by
  simp only [dropAllNAcols, List.mem_filter, Bool.not_eq_true']

theorem mem_foldl_union {β : Type} (f : β → List String) (l : List β) (x : String) :
    ∀ acc, (x ∈ l.foldl
        (fun acc d => acc ++ (f d).filter fun n => !(acc.contains n)) acc) ↔
      x ∈ acc ∨ ∃ d ∈ l, x ∈ f d := by
  induction l with
  | nil => intro acc; simp
  | cons d rest ih =>
    intro acc
    rw [List.foldl_cons, ih]
    constructor
    · rintro (hm | hm)
      · rcases List.mem_append.mp hm with hm | hm
        · exact Or.inl hm
        · exact Or.inr ⟨d, List.mem_cons_self _ _, (List.mem_filter.mp hm).1⟩
      · obtain ⟨d', hd', hx⟩ := hm
        exact Or.inr ⟨d', List.mem_cons_of_mem _ hd', hx⟩
    · rintro (hm | ⟨d', hd', hx⟩)
      · exact Or.inl (List.mem_append_left _ hm)
      · rcases List.mem_cons.mp hd' with rfl | hd''
        · by_cases hacc : x ∈ acc
          · exact Or.inl (List.mem_append_left _ hacc)
          · refine Or.inl (List.mem_append_right _ ?_)
            refine List.mem_filter.mpr ⟨hx, ?_⟩
            simp only [Bool.not_eq_true']
            exact Bool.eq_false_iff.mpr fun hc => hacc ((contains_iff_mem _ _).mp hc)
        · exact Or.inr ⟨d', hd'', hx⟩

theorem map_fst_keyed {α : Type} (F : String → α) :
    ∀ l : List String, l.map (Prod.fst ∘ fun n => ((n, F n) : String × α)) = l := by
  intro l
  induction l with
  | nil => rfl
  | cons a t ih => simp only [List.map_cons, Function.comp, ih]

theorem concatDFs_colNames_mem {granular : Type}
    (dfs : List (DFrame (Option granular))) (name : String) :
    name ∈ (concatDFs dfs).colNames ↔ ∃ d ∈ dfs, name ∈ d.colNames := by
  unfold concatDFs DFrame.colNames
  simp only [List.map_map]
  rw [map_fst_keyed]
  rw [mem_foldl_union (fun d : DFrame (Option granular) => List.map Prod.fst d.cols)
    dfs name []]
  simp

theorem cleanedContribution_eq_some {granular : Type} (g : String) (k : granular)
    (r : GroupResult (Option granular)) (d : DFrame (Option granular)) :
    cleanedContribution g k r = some d ↔
      (¬ r.data_in.isEmpty = true ∧ d = dropAllNAcols (withGroupKey g k r)) := by
  unfold cleanedContribution
  by_cases h : r.data_in.isEmpty = true
  · simp [h]
  · simp [h, eq_comm]

/-- CLAIM C10.  In grouped execution, each group's contribution to the
filters table is its working row table (group key re-attached) with
exactly the all-NA columns dropped; consequently every column of the
final filters table is non-all-NA in at least one group, so a column that
is all-NA in every group (an all-NA input column, for instance) is absent
from the filters table even though it was present in the group's working
row table. -/
theorem c10_all_na_columns_dropped {granular : Type} [LinearOrder granular]
    (df : DFrame (Option granular)) (cfg : CfgModel (Option granular))
    (g : String) (gcol : List (Option granular))
    (results : List (granular × GroupResult (Option granular)))
    (fdf adf : DFrame (Option granular))
    (hg : cfg.group_by = some g)
    (hcol : df.getCol g = some gcol)
    (hres : groupedResults df cfg g gcol = .ok results)
    (hout : processAllGroups df cfg = .ok (fdf, adf)) :
    (∀ p ∈ results, ∀ nv ∈ (withGroupKey g p.1 p.2).cols,
      (nv ∈ (dropAllNAcols (withGroupKey g p.1 p.2)).cols ↔
        (nv.2.all cellIsNA) = false)) ∧
    (∀ name, name ∈ fdf.colNames →
      ∃ p ∈ results, ¬ p.2.data_in.isEmpty = true ∧
        name ∈ (dropAllNAcols (withGroupKey g p.1 p.2)).colNames) := by
  constructor
  · intro p hp nv hnv
    rw [mem_dropAllNAcols]
    constructor
    · exact fun h => h.2
    · exact fun h => ⟨hnv, h⟩
  · unfold processAllGroups at hout
    simp only [hg, hcol, hres, Except.map, Except.ok.injEq, Prod.mk.injEq] at hout
    obtain ⟨hfdf, hadf⟩ := hout
    intro name hname
    rw [← hfdf] at hname
    by_cases hce : (results.filterMap fun p => cleanedContribution g p.1 p.2).isEmpty = true
    · rw [if_pos hce] at hname
      simp [emptyDF, DFrame.colNames] at hname
    · rw [if_neg hce] at hname
      by_cases hcb : (concatDFs
          (results.filterMap fun p => cleanedContribution g p.1 p.2)).isEmpty = true
      · rw [if_pos hcb] at hname
        simp [emptyDF, DFrame.colNames] at hname
      · rw [if_neg hcb] at hname
        obtain ⟨d, hd, hnd⟩ := (concatDFs_colNames_mem _ name).mp hname
        obtain ⟨p, hp, hcc⟩ := List.mem_filterMap.mp hd
        obtain ⟨hne, hdd⟩ := (cleanedContribution_eq_some g p.1 p.2 d).mp hcc
        refine ⟨p, hp, hne, ?_⟩
        rw [← hdd]
        exact hnd

theorem c10_witness :
    ∃ results fdf adf,
      groupedResults dfC10 cfgC10 "g" [some (1 : Int), some 1] = .ok results ∧
      processAllGroups dfC10 cfgC10 = .ok (fdf, adf) ∧
      (∀ p ∈ results, ∀ nv ∈ (withGroupKey "g" p.1 p.2).cols,
        (nv ∈ (dropAllNAcols (withGroupKey "g" p.1 p.2)).cols ↔
          (nv.2.all cellIsNA) = false)) ∧
      (∀ name, name ∈ fdf.colNames →
        ∃ p ∈ results, ¬ p.2.data_in.isEmpty = true ∧
          name ∈ (dropAllNAcols (withGroupKey "g" p.1 p.2)).colNames) ∧
      (∃ p ∈ results, "c" ∈ (withGroupKey "g" p.1 p.2).colNames) ∧
      "c" ∉ fdf.colNames := by
  have hres : groupedResults dfC10 cfgC10 "g" [some (1 : Int), some 1] =
      .ok [((1 : Int),
        ⟨⟨2, [("c", [none, none]), ("q", [some 2, some 3]), ("f", [some 3, some 4])]⟩,
         [], ["f"]⟩)] := rfl
  have hout : processAllGroups dfC10 cfgC10 =
      .ok (⟨2, [("q", [some 2, some 3]), ("f", [some 3, some 4]),
              ("g", [some 1, some 1])]⟩,
           ⟨1, [("g", [some 1])]⟩) := rfl
  have h := c10_all_na_columns_dropped dfC10 cfgC10 "g" [some 1, some 1] _ _ _
    rfl rfl hres hout
  exact ⟨_, _, _, hres, hout, h.1, h.2,
    ⟨((1 : Int),
      ⟨⟨2, [("c", [none, none]), ("q", [some 2, some 3]), ("f", [some 3, some 4])]⟩,
       [], ["f"]⟩), by decide, by decide⟩, by decide⟩

theorem colon_mem_key (m g : String) : ':' ∈ (m ++ ":" ++ g).data := by
  rw [String.data_append, String.data_append]
  refine List.mem_append_left _ (List.mem_append_right _ ?_)
  simp [String.data]

theorem key_ne_of_noColon {m g f : String} (hf : noColon f) : m ++ ":" ++ g ≠ f := by
  intro h
  exact hf (h ▸ colon_mem_key m g)

theorem key_inj {m g g' : String} (h : m ++ ":" ++ g = m ++ ":" ++ g') : g = g' := by
  have hd := congrArg String.data h
  rw [String.data_append, String.data_append, String.data_append, String.data_append]
    at hd
  have := List.append_cancel_left hd
  exact String.ext this

theorem encKey_model {m : String} (hm : m ≠ "") (name : String) :
    encKey (some m) name = m ++ ":" ++ name := by
  simp [encKey, pyTruthy, hm]

theorem pyOrStr_none_some {m : String} : pyOrStr none (some m) = some m := by
  simp [pyOrStr, pyTruthy]

theorem pyTruthy_some {m : String} (hm : m ≠ "") : pyTruthy (some m) = true := by
  simp [pyTruthy, hm]

theorem getFeature_none_eq (st : Store) (model : String)
    (hcm : st.currentModel = some model) (hm : model ≠ "") (f : String) :
    st.getFeature f none =
      (match st.features.lookup (model ++ ":" ++ f) with
       | some fd => some fd
       | none => st.features.lookup f) := by
  unfold Store.getFeature
  rw [hcm]
  simp only [pyOrStr_none_some, encKey_model hm, pyTruthy_some hm, Bool.and_true]
  cases h : st.features.lookup (model ++ ":" ++ f) with
  | none => simp [h]
  | some fd => simp [h]

theorem getFeature_some_is_lookup {st : Store} {model : String}
    (hcm : st.currentModel = some model) (hm : model ≠ "") {f : String}
    {fd : FeatureDefn} (h : st.getFeature f none = some fd) :
    ∃ k, st.features.lookup k = some fd := by
  rw [getFeature_none_eq st model hcm hm] at h
  cases hk : st.features.lookup (model ++ ":" ++ f) with
  | some fd' =>
    rw [hk] at h
    exact ⟨model ++ ":" ++ f, hk.trans h⟩
  | none =>
    rw [hk] at h
    exact ⟨f, h⟩

theorem evolves_refl (fs : String → String → Option (List String)) (model : String)
    (st : Store) : Evolves fs model st st :=
  ⟨rfl, fun _ => Or.inl rfl⟩

theorem evolves_hasFeature {fs : String → String → Option (List String)}
    {model : String} {st st' : Store} (h : Evolves fs model st st')
    (f : String) (hf : noColon f) : st'.hasFeature f = st.hasFeature f := by
  unfold Store.hasFeature
  rcases h.2 f with heq | ⟨g, hkey, _⟩
  · rw [heq]
  · exact absurd hkey.symm (key_ne_of_noColon hf)

theorem evolves_trans {fs : String → String → Option (List String)}
    {model : String} {st st' st'' : Store}
    (h1 : Evolves fs model st st') (h2 : Evolves fs model st' st'') :
    Evolves fs model st st'' := by
  refine ⟨h2.1.trans h1.1, fun k => ?_⟩
  rcases h2.2 k with heq | ⟨g, hkey, hgc, hghas, hval, hsome⟩
  · rcases h1.2 k with heq' | ⟨g, hkey, hgc, hghas, hval, hsome⟩
    · exact Or.inl (heq.trans heq')
    · exact Or.inr ⟨g, hkey, hgc, hghas, heq.trans hval, hsome⟩
  · refine Or.inr ⟨g, hkey, hgc, ?_, hval, hsome⟩
    rw [← evolves_hasFeature h1 g hgc]
    exact hghas

theorem evolves_getFeature_of_has {fs : String → String → Option (List String)}
    {model : String} {st st' : Store} (h : Evolves fs model st st')
    (hcm : st.currentModel = some model) (hm : model ≠ "")
    (f : String) (hf : noColon f) (hhas : st.hasFeature f = true) :
    st'.getFeature f none = st.getFeature f none := by
  have hcm' : st'.currentModel = some model := by rw [h.1, hcm]
  rw [getFeature_none_eq st model hcm hm, getFeature_none_eq st' model hcm' hm]
  have hkey : st'.features.lookup (model ++ ":" ++ f) =
      st.features.lookup (model ++ ":" ++ f) := by
    rcases h.2 (model ++ ":" ++ f) with heq | ⟨g, hkey, hgc, hghas, hval, hsome⟩
    · exact heq
    · have hgf : g = f := (key_inj hkey).symm
      rw [hgf] at hghas
      rw [hghas] at hhas
      exact absurd hhas (by simp)
  have hbare : st'.features.lookup f = st.features.lookup f := by
    rcases h.2 f with heq | ⟨g, hkey, _⟩
    · exact heq
    · exact absurd hkey.symm (key_ne_of_noColon hf)
  rw [hkey, hbare]

theorem evolves_getFeature_fsdef {fs : String → String → Option (List String)}
    {model : String} {st st' : Store} (h : Evolves fs model st st')
    (hcm : st.currentModel = some model) (hm : model ≠ "")
    (f : String) (hf : noColon f)
    (hfd : st.getFeature f none = fsDef fs model f)
    (hs : (fsDef fs model f).isSome = true) :
    st'.getFeature f none = fsDef fs model f := by
  have hcm' : st'.currentModel = some model := by rw [h.1, hcm]
  have hbare : st'.features.lookup f = st.features.lookup f := by
    rcases h.2 f with heq | ⟨g, hkey, _⟩
    · exact heq
    · exact absurd hkey.symm (key_ne_of_noColon hf)
  rcases h.2 (model ++ ":" ++ f) with heq | ⟨g, hkey, hgc, hghas, hval, hsome⟩
  · rw [getFeature_none_eq st' model hcm' hm, heq, hbare,
      ← getFeature_none_eq st model hcm hm]
    exact hfd
  · have hgf : g = f := (key_inj hkey).symm
    rw [hgf] at hval
    rw [getFeature_none_eq st' model hcm' hm, hval]
    obtain ⟨fd, hfd'⟩ := Option.isSome_iff_exists.mp hs
    rw [hfd']

theorem fsDef_args {fs : String → String → Option (List String)} {model g : String}
    {fd : FeatureDefn} (hfs : FsNamesOk fs) (h : fsDef fs model g = some fd) :
    ∀ a ∈ resolverArgList fd, noColon a := by
  unfold fsDef at h
  cases h1 : fs model g with
  | some args =>
    rw [h1] at h
    injection h with h
    intro a ha
    rw [← h] at ha
    exact hfs model g args h1 a ha
  | none =>
    rw [h1] at h
    cases h2 : fs "common" g with
    | some args =>
      rw [h2] at h
      injection h with h
      intro a ha
      rw [← h] at ha
      exact hfs "common" g args h2 a ha
    | none => rw [h2] at h; exact absurd h (by simp)

theorem evolves_storeNamesOk {fs : String → String → Option (List String)}
    {model : String} {st st' : Store} (h : Evolves fs model st st')
    (hfs : FsNamesOk fs) (hst : StoreNamesOk st) : StoreNamesOk st' := by
  intro k fd hk a ha
  rcases h.2 k with heq | ⟨g, hkey, hgc, hghas, hval, hsome⟩
  · rw [heq] at hk
    exact hst k fd hk a ha
  · rw [hval] at hk
    exact fsDef_args hfs hk a ha

theorem load_spec {fs : String → String → Option (List String)} {model : String}
    {st st' : Store} (hcm : st.currentModel = some model) (hm : model ≠ "")
    {feature : String} (hnc : noColon feature)
    (hhas : st.hasFeature feature = false)
    (hload : loadFromFilesystem fs st model feature = .ok st') :
    Evolves fs model st st' ∧
    st'.getFeature feature none = fsDef fs model feature ∧
    (fsDef fs model feature).isSome = true ∧
    st'.currentModel = some model := by
  unfold loadFromFilesystem at hload
  cases hfd : fsDef fs model feature with
  | none => rw [hfd] at hload; exact absurd hload (by simp)
  | some fd =>
    rw [hfd] at hload
    simp only [Except.ok.injEq] at hload
    have hkeyeq : encKey (pyOrStr (some model) st.currentModel) feature =
        model ++ ":" ++ feature := by
      have : pyOrStr (some model) st.currentModel = some model := by
        simp [pyOrStr, pyTruthy, hm]
      rw [this, encKey_model hm]
    have hfeat : st'.features =
        insertAssoc st.features (model ++ ":" ++ feature) fd := by
      rw [← hload]
      unfold Store.storeFeature
      simp only [hkeyeq]
    have hcm' : st'.currentModel = some model := by
      rw [← hload]
      unfold Store.storeFeature
      exact hcm
    have hlook : ∀ k, st'.features.lookup k =
        if k = model ++ ":" ++ feature then some fd else st.features.lookup k := by
      intro k
      rw [hfeat, lookup_insertAssoc]
    refine ⟨⟨by rw [hcm', hcm], fun k => ?_⟩, ?_, rfl, hcm'⟩
    · by_cases hk : k = model ++ ":" ++ feature
      · refine Or.inr ⟨feature, hk, hnc, hhas, ?_, by rw [hfd]; rfl⟩
        rw [hlook k, if_pos hk, hfd]
      · rw [hlook k, if_neg hk]
        exact Or.inl rfl
    · rw [getFeature_none_eq st' model hcm' hm,
        hlook (model ++ ":" ++ feature), if_pos rfl]

theorem indexOf_append_self {f : String} {seq : List String} (h : f ∉ seq) :
    (seq ++ [f]).indexOf f = seq.length := by
  induction seq with
  | nil => simp [List.indexOf_cons]
  | cons a rest ih =>
    have ha : (a == f) = false := by
      rw [beq_eq_false_iff_ne]
      intro hc
      exact h (hc ▸ List.mem_cons_self a rest)
    rw [List.cons_append, List.indexOf_cons, ha]
    simp only [cond_false, List.length_cons]
    rw [ih (fun hc => h (List.mem_cons_of_mem a hc))]

theorem evolves_getFeature_cases {fs : String → String → Option (List String)}
    {model : String} {st st' : Store} (h : Evolves fs model st st')
    (hcm : st.currentModel = some model) (hm : model ≠ "")
    (f : String) (hf : noColon f) :
    st'.getFeature f none = st.getFeature f none ∨
    (st'.getFeature f none = fsDef fs model f ∧ (fsDef fs model f).isSome = true) := by
  have hcm' : st'.currentModel = some model := by rw [h.1, hcm]
  have hbare : st'.features.lookup f = st.features.lookup f := by
    rcases h.2 f with heq | ⟨g, hkey, _⟩
    · exact heq
    · exact absurd hkey.symm (key_ne_of_noColon hf)
  rcases h.2 (model ++ ":" ++ f) with heq | ⟨g, hkey, hgc, hghas, hval, hsome⟩
  · refine Or.inl ?_
    rw [getFeature_none_eq st' model hcm' hm, getFeature_none_eq st model hcm hm,
      heq, hbare]
  · have hgf : g = f := (key_inj hkey).symm
    rw [hgf] at hval hsome
    refine Or.inr ⟨?_, hsome⟩
    rw [getFeature_none_eq st' model hcm' hm, hval]
    obtain ⟨fd, hfd⟩ := Option.isSome_iff_exists.mp hsome
    rw [hfd]

theorem inv_getFeature_stable {fs : String → String → Option (List String)}
    {fidx A G : List String} {model : String} {st st' : Store} {seq : List String}
    (hm : model ≠ "") (hcm : st.currentModel = some model)
    (h : Evolves fs model st st')
    (hinv : ResolveInv fs fidx A G model st seq) {f : String} (hf : f ∈ seq) :
    st'.getFeature f none = st.getFeature f none := by
  obtain ⟨hnc, _, _⟩ := hinv.2.1 f hf
  rcases hinv.2.2.1 f hf with hhas | ⟨hfd, hsome⟩
  · exact evolves_getFeature_of_has h hcm hm f hnc hhas
  · rw [evolves_getFeature_fsdef h hcm hm f hnc hfd hsome, hfd]

theorem inv_evolves {fs : String → String → Option (List String)}
    {fidx A G : List String} {model : String} {st st' : Store} {seq : List String}
    (hm : model ≠ "") (hcm : st.currentModel = some model)
    (h : Evolves fs model st st')
    (hinv : ResolveInv fs fidx A G model st seq) :
    ResolveInv fs fidx A G model st' seq := by
  refine ⟨hinv.1, ?_, ?_, ?_⟩
  · intro f hf
    obtain ⟨hnc, hA, hsi⟩ := hinv.2.1 f hf
    refine ⟨hnc, hA, ?_⟩
    rcases hsi with hhas | hidx
    · exact Or.inl (by rw [evolves_hasFeature h f hnc]; exact hhas)
    · exact Or.inr hidx
  · intro f hf
    obtain ⟨hnc, _, _⟩ := hinv.2.1 f hf
    rcases hinv.2.2.1 f hf with hhas | ⟨hfd, hsome⟩
    · exact Or.inl (by rw [evolves_hasFeature h f hnc]; exact hhas)
    · exact Or.inr ⟨by rw [evolves_getFeature_fsdef h hcm hm f hnc hfd hsome], hsome⟩
  · intro f hf fd hfd d hd hG
    rw [inv_getFeature_stable hm hcm h hinv hf] at hfd
    rcases hinv.2.2.2 f hf fd hfd d hd hG with hA | ⟨hhas, hnf, hnc⟩ | hmem
    · exact Or.inl hA
    · refine Or.inr (Or.inl ⟨?_, hnf, hnc⟩)
      rw [evolves_hasFeature h d hnc]
      exact hhas
    · exact Or.inr (Or.inr hmem)

theorem inv_snoc {fs : String → String → Option (List String)}
    {fidx A G : List String} {model : String} {st : Store} {seq : List String}
    {f : String} {fd : FeatureDefn}
    (hinv : ResolveInv fs fidx A G model st seq)
    (hnew : f ∉ seq) (hnc : noColon f) (hA : A.contains f = false)
    (hsi : st.hasFeature f = true ∨ f ∈ fidx)
    (hdef : st.hasFeature f = true ∨
      (st.getFeature f none = fsDef fs model f ∧ (fsDef fs model f).isSome = true))
    (hgf : st.getFeature f none = some fd)
    (hargs : ∀ d ∈ resolverArgList fd, G.contains d = false →
      (A.contains d = true ∨ (st.hasFeature d = false ∧ d ∉ fidx ∧ noColon d) ∨
        d ∈ seq)) :
    ResolveInv fs fidx A G model st (seq ++ [f]) := by
  refine ⟨?_, ?_, ?_, ?_⟩
  · rw [List.nodup_append]
    exact ⟨hinv.1, List.nodup_singleton f,
      fun a ha hb => hnew ((List.mem_singleton.mp hb) ▸ ha)⟩
  · intro g hg
    rcases List.mem_append.mp hg with hg | hg
    · exact hinv.2.1 g hg
    · rw [List.mem_singleton.mp hg]
      exact ⟨hnc, hA, hsi⟩
  · intro g hg
    rcases List.mem_append.mp hg with hg | hg
    · exact hinv.2.2.1 g hg
    · rw [List.mem_singleton.mp hg]
      exact hdef
  · intro g hg fd' hfd' d hd hG
    rcases List.mem_append.mp hg with hg | hg
    · rcases hinv.2.2.2 g hg fd' hfd' d hd hG with h1 | h2 | ⟨hmem, hlt⟩
      · exact Or.inl h1
      · exact Or.inr (Or.inl h2)
      · refine Or.inr (Or.inr ⟨List.mem_append_left _ hmem, ?_⟩)
        rw [List.indexOf_append_of_mem hmem, List.indexOf_append_of_mem hg]
        exact hlt
    · rw [List.mem_singleton.mp hg] at hfd' ⊢
      have hfd : fd' = fd := by
        rw [hgf] at hfd'
        exact (Option.some.injEq _ _ ▸ hfd').symm
      subst hfd
      rcases hargs d hd hG with h1 | h2 | hmem
      · exact Or.inl h1
      · exact Or.inr (Or.inl h2)
      · refine Or.inr (Or.inr ⟨List.mem_append_left _ hmem, ?_⟩)
        rw [List.indexOf_append_of_mem hmem, indexOf_append_self hnew]
        exact List.indexOf_lt_length.mpr hmem

theorem resolveArgsSeq_stepOk {fs : String → String → Option (List String)}
    {fidx A G : List String} {model : String}
    {step : String → Store → List String → List String →
      Except ResolveErr (Store × List String × List String)}
    (hm : model ≠ "") (hstep : ResolveStepOk fs fidx A G model step) :
    ∀ args st ic seq st2 ic2 seq2, (∀ a ∈ args, noColon a) →
      st.currentModel = some model → StoreNamesOk st →
      ResolveInv fs fidx A G model st seq →
      resolveArgsSeq G step args st ic seq = .ok (st2, ic2, seq2) →
      Evolves fs model st st2 ∧ st2.currentModel = some model ∧ StoreNamesOk st2 ∧
      (∃ t, seq2 = seq ++ t) ∧ ResolveInv fs fidx A G model st2 seq2 ∧
      ∀ a ∈ args, G.contains a = false →
        (A.contains a = true ∨ (st2.hasFeature a = false ∧ a ∉ fidx) ∨ a ∈ seq2) := by
  intro args
  induction args with
  | nil =>
    intro st ic seq st2 ic2 seq2 hnc hcm hsno hinv hok
    simp only [resolveArgsSeq] at hok
    injection hok with hok
    injection hok with h1 hok
    injection hok with h2 h3
    subst h1; subst h2; subst h3
    exact ⟨evolves_refl fs model st, hcm, hsno, ⟨[], (List.append_nil seq).symm⟩,
      hinv, by simp⟩
  | cons a rest ih =>
    intro st ic seq st2 ic2 seq2 hnc hcm hsno hinv hok
    simp only [resolveArgsSeq] at hok
    by_cases hG : G.contains a = true
    · rw [if_pos hG] at hok
      obtain ⟨hev, hcm2, hsno2, hpre, hinv2, hcls⟩ :=
        ih st ic seq st2 ic2 seq2 (fun x hx => hnc x (List.mem_cons_of_mem a hx))
          hcm hsno hinv hok
      refine ⟨hev, hcm2, hsno2, hpre, hinv2, ?_⟩
      intro x hx hxG
      rcases List.mem_cons.mp hx with hx | hx
      · rw [hx] at hxG
        rw [hxG] at hG
        exact absurd hG (by simp)
      · exact hcls x hx hxG
    · rw [if_neg hG] at hok
      cases hstp : step a st ic seq with
      | error e => rw [hstp] at hok; exact absurd hok (by simp)
      | ok out =>
        obtain ⟨st1, ic1, seq1⟩ := out
        rw [hstp] at hok
        have hanc : noColon a := hnc a (List.mem_cons_self a rest)
        obtain ⟨hev1, hcm1, hsno1, ⟨t1, hseq1⟩, hinv1, hcls1⟩ :=
          hstep a st ic seq st1 ic1 seq1 hanc hcm hsno hinv hstp
        obtain ⟨hev2, hcm2, hsno2, ⟨t2, hseq2⟩, hinv2, hcls2⟩ :=
          ih st1 ic1 seq1 st2 ic2 seq2 (fun x hx => hnc x (List.mem_cons_of_mem a hx))
            hcm1 hsno1 hinv1 hok
        refine ⟨evolves_trans hev1 hev2, hcm2, hsno2,
          ⟨t1 ++ t2, by rw [hseq2, hseq1, List.append_assoc]⟩, hinv2, ?_⟩
        intro x hx hxG
        rcases List.mem_cons.mp hx with hx | hx
        · subst hx
          rcases hcls1 with h1 | ⟨h2a, h2b⟩ | h3
          · exact Or.inl h1
          · refine Or.inr (Or.inl ⟨?_, h2b⟩)
            rw [evolves_hasFeature hev2 x hanc]
            exact h2a
          · exact Or.inr (Or.inr (by rw [hseq2]; exact List.mem_append_left _ h3))
        · exact hcls2 x hx hxG

theorem resolveFeature_stepOk (fs : String → String → Option (List String))
    (fidx A G : List String) (model : String)
    (hm : model ≠ "") (hfs : FsNamesOk fs) :
    ∀ fuel, ResolveStepOk fs fidx A G model (resolveFeature fs fidx A G model fuel) := by
  intro fuel
  induction fuel with
  | zero =>
    intro d st ic seq st' ic' seq' hnc hcm hsno hinv hok
    simp only [resolveFeature] at hok
    exact Except.noConfusion hok
  | succ n ih =>
    intro d st ic seq st' ic' seq' hnc hcm hsno hinv hok
    simp only [resolveFeature] at hok
    by_cases hA : A.contains d = true
    · rw [if_pos hA] at hok
      injection hok with hok
      injection hok with h1 hok
      injection hok with h2 h3
      subst h1; subst h2; subst h3
      exact ⟨evolves_refl fs model st, hcm, hsno, ⟨[], (List.append_nil seq).symm⟩,
        hinv, Or.inl hA⟩
    · rw [if_neg hA] at hok
      have hAf : A.contains d = false := Bool.eq_false_iff.mpr hA
      by_cases hB : (!(st.hasFeature d) && !(fidx.contains d)) = true
      · rw [if_pos hB] at hok
        injection hok with hok
        injection hok with h1 hok
        injection hok with h2 h3
        subst h1; subst h2; subst h3
        obtain ⟨hB1, hB2⟩ := Bool.and_eq_true_iff.mp hB
        refine ⟨evolves_refl fs model st, hcm, hsno, ⟨[], (List.append_nil seq).symm⟩,
          hinv, Or.inr (Or.inl ⟨?_, ?_⟩)⟩
        · rw [Bool.not_eq_true'] at hB1
          exact hB1
        · intro hc
          rw [Bool.not_eq_true'] at hB2
          rw [(contains_iff_mem fidx d).mpr hc] at hB2
          exact Bool.noConfusion hB2
      · rw [if_neg hB] at hok
        by_cases hHas : st.hasFeature d = true
        · have hsc : (if st.hasFeature d then Except.ok st
              else loadFromFilesystem fs st model d) = Except.ok (ε := ResolveErr) st :=
            if_pos hHas
          simp only [hsc] at hok
          cases hgf : st.getFeature d none with
          | none =>
            simp only [hgf] at hok
            exact Except.noConfusion hok
          | some fd =>
            simp only [hgf] at hok
            cases hargs : resolveArgsSeq G (resolveFeature fs fidx A G model n)
                (resolverArgList fd) st ic seq with
            | error e =>
              rw [hargs] at hok
              exact Except.noConfusion hok
            | ok out =>
              obtain ⟨st2, ic2, seq2⟩ := out
              rw [hargs] at hok
              injection hok with hok
              injection hok with h1 hok
              injection hok with h2 h3
              subst h1; subst h2; subst h3
              have hargnc : ∀ a ∈ resolverArgList fd, noColon a := by
                obtain ⟨k, hk⟩ := getFeature_some_is_lookup hcm hm hgf
                exact hsno k fd hk
              obtain ⟨hev2, hcm2, hsno2, ⟨t2, hseq2⟩, hinv2, hcls2⟩ :=
                resolveArgsSeq_stepOk hm ih (resolverArgList fd) st ic seq
                  st2 ic2 seq2 hargnc hcm hsno hinv hargs
              have hgf2 : st2.getFeature d none = some fd := by
                rw [evolves_getFeature_of_has hev2 hcm hm d hnc hHas]
                exact hgf
              have hhas2 : st2.hasFeature d = true := by
                rw [evolves_hasFeature hev2 d hnc]
                exact hHas
              by_cases hmem : seq2.contains d = true
              · have happ : appendIfAbsent seq2 d = seq2 := by
                  unfold appendIfAbsent
                  rw [if_pos hmem]
                rw [happ]
                exact ⟨hev2, hcm2, hsno2, ⟨t2, hseq2⟩, hinv2,
                  Or.inr (Or.inr ((contains_iff_mem _ _).mp hmem))⟩
              · have happ : appendIfAbsent seq2 d = seq2 ++ [d] := by
                  unfold appendIfAbsent
                  rw [if_neg hmem]
                have hnew : d ∉ seq2 := fun hc => hmem ((contains_iff_mem _ _).mpr hc)
                rw [happ]
                refine ⟨hev2, hcm2, hsno2,
                  ⟨t2 ++ [d], by rw [hseq2, List.append_assoc]⟩, ?_,
                  Or.inr (Or.inr (List.mem_append_right _ (List.mem_singleton.mpr rfl)))⟩
                refine inv_snoc hinv2 hnew hnc hAf (Or.inl hhas2) (Or.inl hhas2) hgf2 ?_
                intro a ha hGa
                rcases hcls2 a ha hGa with h1 | ⟨h2a, h2b⟩ | h3
                · exact Or.inl h1
                · exact Or.inr (Or.inl ⟨h2a, h2b, hargnc a ha⟩)
                · exact Or.inr (Or.inr h3)
        · have hsc : (if st.hasFeature d then Except.ok st
              else loadFromFilesystem fs st model d) = loadFromFilesystem fs st model d :=
            if_neg hHas
          rw [hsc] at hok
          have hHasF : st.hasFeature d = false := Bool.eq_false_iff.mpr hHas
          have hfidx : d ∈ fidx := by
            by_cases hc : fidx.contains d = true
            · exact (contains_iff_mem fidx d).mp hc
            · exact absurd (by rw [Bool.eq_false_iff.mpr hc, hHasF]; rfl) hB
          cases hload : loadFromFilesystem fs st model d with
          | error e =>
            simp only [hload] at hok
            exact Except.noConfusion hok
          | ok st1 =>
            simp only [hload] at hok
            obtain ⟨hev1, hgf1, hsome1, hcm1⟩ := load_spec hcm hm hnc hHasF hload
            have hsno1 : StoreNamesOk st1 := evolves_storeNamesOk hev1 hfs hsno
            have hinv1 : ResolveInv fs fidx A G model st1 seq :=
              inv_evolves hm hcm hev1 hinv
            cases hgf : st1.getFeature d none with
            | none =>
              simp only [hgf] at hok
              exact Except.noConfusion hok
            | some fd =>
              simp only [hgf] at hok
              cases hargs : resolveArgsSeq G (resolveFeature fs fidx A G model n)
                  (resolverArgList fd) st1 ic seq with
              | error e =>
                rw [hargs] at hok
                exact Except.noConfusion hok
              | ok out =>
                obtain ⟨st2, ic2, seq2⟩ := out
                rw [hargs] at hok
                injection hok with hok
                injection hok with h1 hok
                injection hok with h2 h3
                subst h1; subst h2; subst h3
                have hargnc : ∀ a ∈ resolverArgList fd, noColon a := by
                  obtain ⟨k, hk⟩ := getFeature_some_is_lookup hcm1 hm hgf
                  exact hsno1 k fd hk
                obtain ⟨hev2, hcm2, hsno2, ⟨t2, hseq2⟩, hinv2, hcls2⟩ :=
                  resolveArgsSeq_stepOk hm ih (resolverArgList fd) st1 ic seq
                    st2 ic2 seq2 hargnc hcm1 hsno1 hinv1 hargs
                have hfddef : fsDef fs model d = some fd := by
                  rw [← hgf1]
                  exact hgf
                have hgf2 : st2.getFeature d none = some fd := by
                  rw [evolves_getFeature_fsdef hev2 hcm1 hm d hnc hgf1 hsome1]
                  exact hfddef
                have hev : Evolves fs model st st2 := evolves_trans hev1 hev2
                by_cases hmem : seq2.contains d = true
                · have happ : appendIfAbsent seq2 d = seq2 := by
                    unfold appendIfAbsent
                    rw [if_pos hmem]
                  rw [happ]
                  exact ⟨hev, hcm2, hsno2, ⟨t2, hseq2⟩, hinv2,
                    Or.inr (Or.inr ((contains_iff_mem _ _).mp hmem))⟩
                · have happ : appendIfAbsent seq2 d = seq2 ++ [d] := by
                    unfold appendIfAbsent
                    rw [if_neg hmem]
                  have hnew : d ∉ seq2 := fun hc => hmem ((contains_iff_mem _ _).mpr hc)
                  rw [happ]
                  refine ⟨hev, hcm2, hsno2,
                    ⟨t2 ++ [d], by rw [hseq2, List.append_assoc]⟩, ?_,
                    Or.inr (Or.inr (List.mem_append_right _ (List.mem_singleton.mpr rfl)))⟩
                  have hdef2 : st2.getFeature d none = fsDef fs model d := by
                    rw [hgf2, hfddef]
                  refine inv_snoc hinv2 hnew hnc hAf (Or.inr hfidx)
                    (Or.inr ⟨hdef2, hsome1⟩) hgf2 ?_
                  intro a ha hGa
                  rcases hcls2 a ha hGa with h1 | ⟨h2a, h2b⟩ | h3
                  · exact Or.inl h1
                  · exact Or.inr (Or.inl ⟨h2a, h2b, hargnc a ha⟩)
                  · exact Or.inr (Or.inr h3)

theorem except_bind_error {ε α β : Type} (e : ε) (g : α → Except ε β) :
    (Except.error e >>= g) = Except.error e := rfl

theorem except_bind_ok {ε α β : Type} (a : α) (g : α → Except ε β) :
    (Except.ok a >>= g) = g a := rfl

theorem resolveDependencies_inv {fs : String → String → Option (List String)}
    {fidx A G : List String} {model : String}
    (hm : model ≠ "") (hfs : FsNamesOk fs) (fuel : Nat) :
    ∀ (outs : List String) (st : Store) (ic seq : List String)
      (st2 : Store) (ic2 seq2 : List String), (∀ o ∈ outs, noColon o) →
      st.currentModel = some model → StoreNamesOk st →
      ResolveInv fs fidx A G model st seq →
      List.foldlM (fun acc feature =>
          resolveFeature fs fidx A G model fuel feature acc.1 acc.2.1 acc.2.2)
        (st, ic, seq) outs = .ok (st2, ic2, seq2) →
      st2.currentModel = some model ∧ ResolveInv fs fidx A G model st2 seq2 := by
  intro outs
  induction outs with
  | nil =>
    intro st ic seq st2 ic2 seq2 hnc hcm hsno hinv hok
    simp only [List.foldlM_nil] at hok
    have hok' : (Except.ok (st, ic, seq) : Except ResolveErr _) =
        .ok (st2, ic2, seq2) := hok
    injection hok' with hok'
    injection hok' with h1 hok'
    injection hok' with h2 h3
    subst h1; subst h3
    exact ⟨hcm, hinv⟩
  | cons o rest ih =>
    intro st ic seq st2 ic2 seq2 hnc hcm hsno hinv hok
    simp only [List.foldlM_cons] at hok
    cases hstep : resolveFeature fs fidx A G model fuel o st ic seq with
    | error e =>
      rw [hstep, except_bind_error] at hok
      exact Except.noConfusion hok
    | ok out =>
      obtain ⟨st1, ic1, seq1⟩ := out
      rw [hstep, except_bind_ok] at hok
      have honc : noColon o := hnc o (List.mem_cons_self o rest)
      obtain ⟨hev1, hcm1, hsno1, _, hinv1, _⟩ :=
        resolveFeature_stepOk fs fidx A G model hm hfs fuel o st ic seq
          st1 ic1 seq1 honc hcm hsno hinv hstep
      exact ih st1 ic1 seq1 st2 ic2 seq2
        (fun x hx => hnc x (List.mem_cons_of_mem o hx)) hcm1 hsno1 hinv1 hok

/-- CLAIM C2.  Every execution plan returned by
`DependencyResolver.resolve_dependencies` is a valid topological order:
for every feature `f` of the returned `exec_seq` and every argument `d`
of `f`'s registered definition that is not a group-by column and itself
appears in `exec_seq`, the index of `d` is strictly smaller than the
index of `f`.  (Well-formedness side conditions: a nonempty model
context, and colon-free feature and argument names, since the registry
encodes namespaces as `"model:name"` string keys.) -/
theorem c2_exec_seq_topological
    (fs : String → String → Option (List String)) (fidx A G : List String)
    (model : String) (fuel : Nat) (st st2 : Store) (outs ic2 seq : List String)
    (hm : model ≠ "") (hcm : st.currentModel = some model)
    (hfs : FsNamesOk fs) (hst : StoreNamesOk st)
    (houts : ∀ o ∈ outs, noColon o)
    (hres : resolveDependencies fs fidx A G model fuel st outs =
      .ok (st2, ic2, seq)) :
    ∀ f ∈ seq, ∀ fd, st2.getFeature f none = some fd →
      ∀ d ∈ resolverArgList fd, G.contains d = false → d ∈ seq →
        seq.indexOf d < seq.indexOf f := by
  have hinv0 : ResolveInv fs fidx A G model st [] :=
    ⟨List.nodup_nil, by simp, by simp, by simp⟩
  unfold resolveDependencies at hres
  obtain ⟨hcm2, hinv⟩ := resolveDependencies_inv hm hfs fuel outs st [] [] st2 ic2
    seq houts hcm hst hinv0 hres
  intro f hf fd hfd d hd hG hdseq
  rcases hinv.2.2.2 f hf fd hfd d hd hG with h1 | ⟨h2a, h2b, _⟩ | ⟨_, hlt⟩
  · obtain ⟨_, hAf, _⟩ := hinv.2.1 d hdseq
    rw [h1] at hAf
    exact Bool.noConfusion hAf
  · obtain ⟨_, _, hsi⟩ := hinv.2.1 d hdseq
    rcases hsi with hh | hh
    · rw [h2a] at hh
      exact Bool.noConfusion hh
    · exact absurd hh h2b
  · exact hlt

theorem c2_witness :
    resolveDependencies fsNone [] ["c1", "c2"] [] "m" 3 stChain ["derived"] =
      .ok (stChain, ["c1", "c2"], ["base", "derived"]) ∧
    List.indexOf "base" ["base", "derived"] <
      List.indexOf "derived" ["base", "derived"] := by
  refine ⟨rfl, ?_⟩
  refine c2_exec_seq_topological fsNone [] ["c1", "c2"] [] "m" 3 stChain stChain
    ["derived"] ["c1", "c2"] ["base", "derived"] (by decide) rfl ?_ ?_ ?_ rfl
    "derived" (by simp) (FeatureDefn.func ["base", "c2"]) rfl
    "base" (by simp [resolverArgList]) rfl (by simp)
  · intro folder g args h
    exact absurd h (by simp [fsNone])
  · intro k fd hk a ha
    have hmem := lookup_mem hk
    simp only [stChain, List.mem_cons, List.mem_singleton] at hmem
    rcases hmem with hpair | hpair | hpair
    · rw [(Prod.mk.injEq _ _ _ _).mp hpair |>.2] at ha
      simp only [resolverArgList, List.mem_cons, List.not_mem_nil, or_false] at ha
      rcases ha with ha | ha <;> rw [ha] <;>
        exact fun hc => by simp [String.data] at hc
    · rw [(Prod.mk.injEq _ _ _ _).mp hpair |>.2] at ha
      simp only [resolverArgList, List.mem_cons, List.not_mem_nil, or_false] at ha
      rw [ha]
      exact fun hc => by simp [String.data] at hc
    · exact absurd hpair (by simp)
  · intro o ho
    simp only [List.mem_singleton] at ho
    rw [ho]
    exact fun hc => by simp [String.data] at hc

theorem resolveFeature_selfref_stuck :
    ∀ fuel ic seq, resolveFeature fsNone [] [] [] "m" fuel "selfref" stCyc ic seq =
      .error .fuelExhausted := by
  intro fuel
  induction fuel with
  | zero => intro ic seq; rfl
  | succ n ih =>
    intro ic seq
    have h1 : resolveFeature fsNone [] [] [] "m" (n + 1) "selfref" stCyc ic seq =
        match resolveArgsSeq [] (resolveFeature fsNone [] [] [] "m" n) ["selfref"]
            stCyc ic seq with
        | .error e => .error e
        | .ok (st2, ic2, seq2) => .ok (st2, ic2, appendIfAbsent seq2 "selfref") := rfl
    have h2 : resolveArgsSeq [] (resolveFeature fsNone [] [] [] "m" n) ["selfref"]
        stCyc ic seq =
        match resolveFeature fsNone [] [] [] "m" n "selfref" stCyc ic seq with
        | .error e => .error e
        | .ok (st1, ic1, seq1) =>
            resolveArgsSeq [] (resolveFeature fsNone [] [] [] "m" n) [] st1 ic1 seq1 :=
      rfl
    rw [h1, h2, ih ic seq]

/-- CLAIM C3 counterexample.  With a single registered feature `selfref`
whose argument list names `selfref` itself, `resolve_dependencies` never
returns: `_resolve_feature` has no cycle guard, so in the fuel-indexed
embedding the run exhausts every fuel bound instead of producing a plan. -/
theorem c3_counterexample :
    ¬ ∃ fuel out,
      resolveDependencies fsNone [] [] [] "m" fuel stCyc ["selfref"] = .ok out := by
  rintro ⟨fuel, out, h⟩
  unfold resolveDependencies at h
  simp only [List.foldlM_cons] at h
  rw [resolveFeature_selfref_stuck fuel [] [], except_bind_error] at h
  exact Except.noConfusion h

theorem resolveArgsSeq_total {fs : String → String → Option (List String)}
    {A G : List String} {model : String} {rank : String → Nat} {st0 : Store}
    {step : String → Store → List String → List String →
      Except ResolveErr (Store × List String × List String)} {n : Nat}
    (hstep : ∀ f st ic seq, (if A.contains f then 1 else rank f + 2) ≤ n →
      noColon f → Evolves fs model st0 st →
      ∃ st2 ic2 seq2, step f st ic seq = .ok (st2, ic2, seq2) ∧
        Evolves fs model st0 st2) :
    ∀ args st ic seq, (∀ a ∈ args, noColon a) →
      (∀ a ∈ args, G.contains a = false →
        (if A.contains a then 1 else rank a + 2) ≤ n) →
      Evolves fs model st0 st →
      ∃ st2 ic2 seq2, resolveArgsSeq G step args st ic seq = .ok (st2, ic2, seq2) ∧
        Evolves fs model st0 st2 := by
  intro args
  induction args with
  | nil =>
    intro st ic seq _ _ hev
    exact ⟨st, ic, seq, rfl, hev⟩
  | cons a rest ihr =>
    intro st ic seq hnc hrk hev
    simp only [resolveArgsSeq]
    by_cases hG : G.contains a = true
    · rw [if_pos hG]
      exact ihr st ic seq (fun x hx => hnc x (List.mem_cons_of_mem a hx))
        (fun x hx => hrk x (List.mem_cons_of_mem a hx)) hev
    · rw [if_neg hG]
      obtain ⟨st1, ic1, seq1, hs, hev1⟩ :=
        hstep a st ic seq
          (hrk a (List.mem_cons_self a rest) (Bool.eq_false_iff.mpr hG))
          (hnc a (List.mem_cons_self a rest)) hev
      obtain ⟨st2, ic2, seq2, hs2, hev2⟩ :=
        ihr st1 ic1 seq1 (fun x hx => hnc x (List.mem_cons_of_mem a hx))
          (fun x hx => hrk x (List.mem_cons_of_mem a hx)) hev1
      exact ⟨st2, ic2, seq2, by simp only [hs, hs2], hev2⟩

theorem resolveFeature_total (fs : String → String → Option (List String))
    (fidx A G : List String) (model : String) (rank : String → Nat) (st0 : Store)
    (hm : model ≠ "") (hfs : FsNamesOk fs) (hst0 : StoreNamesOk st0)
    (hcm0 : st0.currentModel = some model)
    (hrank : RankHyp fs st0 model A G rank) (hload : LoadHyp fs fidx model) :
    ∀ fuel f st ic seq,
      (if A.contains f then 1 else rank f + 2) ≤ fuel → noColon f →
      Evolves fs model st0 st →
      ∃ st2 ic2 seq2,
        resolveFeature fs fidx A G model fuel f st ic seq = .ok (st2, ic2, seq2) ∧
        Evolves fs model st0 st2 := by
  intro fuel
  induction fuel with
  | zero =>
    intro f st ic seq hfuel hnc hev
    by_cases h : A.contains f = true
    · rw [if_pos h] at hfuel
      omega
    · rw [if_neg h] at hfuel
      omega
  | succ n ih =>
    intro f st ic seq hfuel hnc hev
    have hcm : st.currentModel = some model := by rw [hev.1, hcm0]
    have hsno : StoreNamesOk st := evolves_storeNamesOk hev hfs hst0
    by_cases hA : A.contains f = true
    · refine ⟨st, appendIfAbsent ic f, seq, ?_, hev⟩
      simp only [resolveFeature]
      rw [if_pos hA]
    · rw [if_neg hA] at hfuel
      by_cases hB : (!(st.hasFeature f) && !(fidx.contains f)) = true
      · refine ⟨st, appendIfAbsent ic f, seq, ?_, hev⟩
        simp only [resolveFeature]
        rw [if_neg hA, if_pos hB]
      · by_cases hHas : st.hasFeature f = true
        · have hgfs : (st.getFeature f none).isSome = true := by
            rw [getFeature_none_eq st model hcm hm]
            cases hk : st.features.lookup (model ++ ":" ++ f) with
            | some fd => rfl
            | none =>
              unfold Store.hasFeature at hHas
              exact hHas
          obtain ⟨fd, hgf⟩ := Option.isSome_iff_exists.mp hgfs
          have hfd0 : st0.getFeature f none = some fd ∨ fsDef fs model f = some fd := by
            rcases evolves_getFeature_cases hev hcm0 hm f hnc with he | ⟨he, _⟩
            · exact Or.inl (by rw [← he]; exact hgf)
            · exact Or.inr (by rw [← he]; exact hgf)
          have hargnc : ∀ a ∈ resolverArgList fd, noColon a := by
            obtain ⟨k, hk⟩ := getFeature_some_is_lookup hcm hm hgf
            exact hsno k fd hk
          have hargrank : ∀ a ∈ resolverArgList fd, G.contains a = false →
              (if A.contains a then 1 else rank a + 2) ≤ n := by
            intro a ha hGa
            by_cases hAa : A.contains a = true
            · rw [if_pos hAa]
              omega
            · rw [if_neg hAa]
              have := hrank f fd hfd0 a ha hGa (Bool.eq_false_iff.mpr hAa)
              omega
          obtain ⟨st2, ic2, seq2, hargs, hev2⟩ :=
            resolveArgsSeq_total ih (resolverArgList fd) st ic seq hargnc hargrank hev
          refine ⟨st2, ic2, appendIfAbsent seq2 f, ?_, hev2⟩
          simp only [resolveFeature]
          rw [if_neg hA, if_neg hB]
          have hsc : (if st.hasFeature f then Except.ok st
              else loadFromFilesystem fs st model f) = Except.ok (ε := ResolveErr) st :=
            if_pos hHas
          simp only [hsc, hgf, hargs]
        · have hHasF : st.hasFeature f = false := Bool.eq_false_iff.mpr hHas
          have hfidx : f ∈ fidx := by
            by_cases hc : fidx.contains f = true
            · exact (contains_iff_mem fidx f).mp hc
            · exact absurd (by rw [Bool.eq_false_iff.mpr hc, hHasF]; rfl) hB
          obtain ⟨fd, hfdd⟩ := Option.isSome_iff_exists.mp (hload f hfidx)
          have hloadeq : loadFromFilesystem fs st model f =
              .ok (st.storeFeature f fd (some model)) := by
            unfold loadFromFilesystem
            rw [hfdd]
          obtain ⟨hev1, hgf1, hsome1, hcm1⟩ := load_spec hcm hm hnc hHasF hloadeq
          have hevt : Evolves fs model st0 (st.storeFeature f fd (some model)) :=
            evolves_trans hev hev1
          have hgf : (st.storeFeature f fd (some model)).getFeature f none = some fd := by
            rw [hgf1, hfdd]
          have hargnc : ∀ a ∈ resolverArgList fd, noColon a := fsDef_args hfs hfdd
          have hargrank : ∀ a ∈ resolverArgList fd, G.contains a = false →
              (if A.contains a then 1 else rank a + 2) ≤ n := by
            intro a ha hGa
            by_cases hAa : A.contains a = true
            · rw [if_pos hAa]
              omega
            · rw [if_neg hAa]
              have := hrank f fd (Or.inr hfdd) a ha hGa (Bool.eq_false_iff.mpr hAa)
              omega
          obtain ⟨st2, ic2, seq2, hargs, hev2⟩ :=
            resolveArgsSeq_total ih (resolverArgList fd)
              (st.storeFeature f fd (some model)) ic seq hargnc hargrank hevt
          refine ⟨st2, ic2, appendIfAbsent seq2 f, ?_, hev2⟩
          simp only [resolveFeature]
          rw [if_neg hA, if_neg hB]
          have hsc : (if st.hasFeature f then Except.ok st
              else loadFromFilesystem fs st model f) =
              Except.ok (st.storeFeature f fd (some model)) := by
            rw [if_neg hHas, hloadeq]
          simp only [hsc, hgf, hargs]

/-- CLAIM C3 (amended).  `resolve_dependencies` is not circular-safe: the
recursion of `_resolve_feature` has no cycle guard, so a self-referential
definition makes it recurse forever (see the counterexample).  Amended
property: when the dependency graph is acyclic — witnessed by a rank
function decreasing along every dependency edge of every reachable
definition — and every indexed feature is loadable, resolution terminates
and returns an execution plan, given recursion depth beyond the rank of
every requested output. -/
theorem c3_resolution_terminates
    (fs : String → String → Option (List String)) (fidx A G : List String)
    (model : String) (rank : String → Nat) (st : Store) (outs : List String)
    (fuel : Nat)
    (hm : model ≠ "") (hcm : st.currentModel = some model)
    (hfs : FsNamesOk fs) (hst : StoreNamesOk st)
    (hrank : RankHyp fs st model A G rank) (hload : LoadHyp fs fidx model)
    (houts : ∀ o ∈ outs, noColon o)
    (hfuel : ∀ o ∈ outs, rank o + 2 ≤ fuel) :
    ∃ out, resolveDependencies fs fidx A G model fuel st outs = .ok out := by
  unfold resolveDependencies
  have aux : ∀ (l : List String) (acc : Store × List String × List String),
      Evolves fs model st acc.1 → (∀ o ∈ l, noColon o) →
      (∀ o ∈ l, rank o + 2 ≤ fuel) →
      ∃ out, List.foldlM (fun acc feature =>
          resolveFeature fs fidx A G model fuel feature acc.1 acc.2.1 acc.2.2)
        acc l = .ok out := by
    intro l
    induction l with
    | nil =>
      intro acc _ _ _
      exact ⟨acc, by simp only [List.foldlM_nil]; rfl⟩
    | cons o rest ihl =>
      rintro ⟨sta, ica, seqa⟩ hev hnc hfl
      have hfo : (if A.contains o then 1 else rank o + 2) ≤ fuel := by
        have := hfl o (List.mem_cons_self o rest)
        by_cases h : A.contains o = true
        · rw [if_pos h]
          omega
        · rw [if_neg h]
          omega
      obtain ⟨st1, ic1, seq1, hs, hev1⟩ :=
        resolveFeature_total fs fidx A G model rank st hm hfs hst hcm hrank hload
          fuel o sta ica seqa hfo (hnc o (List.mem_cons_self o rest)) hev
      obtain ⟨out, hout⟩ :=
        ihl (st1, ic1, seq1) hev1 (fun x hx => hnc x (List.mem_cons_of_mem o hx))
          (fun x hx => hfl x (List.mem_cons_of_mem o hx))
      refine ⟨out, ?_⟩
      simp only [List.foldlM_cons]
      rw [hs, except_bind_ok]
      exact hout
  exact aux outs (st, [], []) (evolves_refl fs model st) houts hfuel

theorem c3_witness :
    ∃ out, resolveDependencies fsNone [] ["c1", "c2"] [] "m" 4 stChain ["derived"] =
      .ok out := by
  refine c3_resolution_terminates fsNone [] ["c1", "c2"] [] "m" rankChain stChain
    ["derived"] 4 (by decide) rfl ?_ ?_ ?_ ?_ ?_ ?_
  · intro folder g args h
    exact absurd h (by simp [fsNone])
  · intro k fd hk a ha
    have hmem := lookup_mem hk
    simp only [stChain, List.mem_cons, List.mem_singleton] at hmem
    rcases hmem with hpair | hpair | hpair
    · rw [(Prod.mk.injEq _ _ _ _).mp hpair |>.2] at ha
      simp only [resolverArgList, List.mem_cons, List.not_mem_nil, or_false] at ha
      rcases ha with ha | ha <;> rw [ha] <;>
        exact fun hc => by simp [String.data] at hc
    · rw [(Prod.mk.injEq _ _ _ _).mp hpair |>.2] at ha
      simp only [resolverArgList, List.mem_cons, List.not_mem_nil, or_false] at ha
      rw [ha]
      exact fun hc => by simp [String.data] at hc
    · exact absurd hpair (by simp)
  · intro f fd h d hd hG hA
    rcases h with h | h
    · have hk : List.lookup ("m" ++ ":" ++ f) stChain.features = none := by
        have h1 : (("m:" ++ f) == "derived") = false := by
          rw [beq_eq_false_iff_ne]
          exact @key_ne_of_noColon "m" f "derived" (fun hc => by simp [String.data] at hc)
        have h2 : (("m:" ++ f) == "base") = false := by
          rw [beq_eq_false_iff_ne]
          exact @key_ne_of_noColon "m" f "base" (fun hc => by simp [String.data] at hc)
        simp [stChain, List.lookup, h1, h2]
      rw [getFeature_none_eq stChain "m" rfl (by decide) f, hk] at h
      have hmem := lookup_mem h
      simp only [stChain, List.mem_cons, List.mem_singleton] at hmem
      rcases hmem with hpair | hpair | hpair
      · obtain ⟨hf, hfd⟩ := (Prod.mk.injEq _ _ _ _).mp hpair
        rw [hfd] at hd
        simp only [resolverArgList, List.mem_cons, List.not_mem_nil, or_false] at hd
        rcases hd with hd | hd
        · rw [hf, hd]
          decide
        · rw [hd] at hA
          exact absurd hA (by decide)
      · obtain ⟨hf, hfd⟩ := (Prod.mk.injEq _ _ _ _).mp hpair
        rw [hfd] at hd
        simp only [resolverArgList, List.mem_cons, List.not_mem_nil, or_false] at hd
        rw [hd] at hA
        exact absurd hA (by decide)
      · exact absurd hpair (by simp)
    · exact absurd h (by simp [fsDef, fsNone])
  · intro g hg
    exact absurd hg (List.not_mem_nil g)
  · intro o ho
    simp only [List.mem_singleton] at ho
    rw [ho]
    exact fun hc => by simp [String.data] at hc
  · intro o ho
    simp only [List.mem_singleton] at ho
    rw [ho]
    decide

end AyniCore
